import Mathlib

/-!
# img4: patch script engine and stream materializer

A shallow embedding of `apply_patch`, `make_img4` and `replace_img4` from
`src/img4.c`, followed by theorems about them.

Conventions of the embedding:

* the patch file is a `List Char`, one `Char` per byte of the file;
* `size_t`, `unsigned long` and `unsigned long long` are 64 bits wide (LP64), `unsigned`
  is 32 bits wide, `uint8_t` values are naturals reduced modulo 256;
* a resource handle (`FHANDLE`, declared in `libvfs/vfs.h`, which is not part of the
  sources) is a state of some type `σ` together with a record of the handle methods
  that `apply_patch` calls;
* C library routines (`fgets`, `strchr`, `strcspn`, `strtoull`, `strtoul`, `realloc`)
  are modelled after ISO C.
-/

set_option autoImplicit false

namespace Img4

/-! ## C library -/

/-- Largest value of `unsigned long long` and of `unsigned long` (both 64 bits wide). -/
def ULLONG_MAX : Nat := 2 ^ 64 - 1

/-- Classification `isspace` of the C locale. -/
def isspace (c : Char) : Bool :=
  c = ' ' || c = '\t' || c = '\n' || c = '\x0b' || c = '\x0c' || c = '\r'

/-- Numeric value of a character as a digit in bases up to 36; 36 for a non-digit. -/
def digit_value (c : Char) : Nat :=
  if '0'.toNat ≤ c.toNat ∧ c.toNat ≤ '9'.toNat then c.toNat - '0'.toNat
  else if 'a'.toNat ≤ c.toNat ∧ c.toNat ≤ 'z'.toNat then c.toNat - 'a'.toNat + 10
  else if 'A'.toNat ≤ c.toNat ∧ c.toNat ≤ 'Z'.toNat then c.toNat - 'A'.toNat + 10
  else 36

/-- Outcome of one `strtoull`/`strtoul` call: the value returned, the characters left at
`*endptr`, whether `errno` was set, and whether `*endptr` differs from the start. -/
structure Conv where
  value : Nat
  endp : List Char
  errno : Bool
  moved : Bool
deriving DecidableEq, Repr

/-- Base selection of `strtoull(_, _, 0)` after blanks and sign: `0x`/`0X` followed by a
hexadecimal digit selects base 16 (the two characters are consumed), a leading `0` selects
base 8, anything else base 10. -/
def select_base : List Char → Nat × List Char
  | '0' :: x :: d :: t =>
    if (x = 'x' ∨ x = 'X') ∧ digit_value d < 16 then (16, d :: t) else (8, '0' :: x :: d :: t)
  | '0' :: t => (8, '0' :: t)
  | s => (10, s)

/-- The call `strtoull(s, &q, 0)` (equally `strtoul`, same width): skip blanks, take an
optional sign, select the base, convert the longest run of digits. Without a digit nothing
is consumed; a magnitude above `ULLONG_MAX` yields `ULLONG_MAX` and sets `errno`; a
leading minus negates in the unsigned type. -/
def strtoull (s : List Char) : Conv :=
  let s1 := s.dropWhile isspace
  let neg := s1.head? = some '-'
  let s2 := if s1.head? = some '-' ∨ s1.head? = some '+' then s1.tail else s1
  let bs := select_base s2
  let digs := bs.2.takeWhile (fun c => digit_value c < bs.1)
  let v := digs.foldl (fun a c => a * bs.1 + digit_value c) 0
  if digs = [] then ⟨0, s, false, false⟩
  else if v > ULLONG_MAX then ⟨ULLONG_MAX, bs.2.drop digs.length, true, true⟩
  else ⟨if neg then (ULLONG_MAX + 1 - v) % (ULLONG_MAX + 1) else v,
        bs.2.drop digs.length, false, true⟩

/-- Characters that `fgets` stores for one call with room for `n` characters: up to and
including the first newline, at most `n` of them. -/
def take_line : Nat → List Char → List Char
  | 0, _ => []
  | _, [] => []
  | n + 1, c :: cs => if c = '\n' then [c] else c :: take_line n cs

/-- The call `fgets(buf, size, f)` on the unread part `f` of the stream: `none` is the
NULL result at end of file, otherwise the characters stored in `buf` and the part of the
stream left unread. -/
def fgets (size : Nat) (f : List Char) : Option (List Char × List Char) :=
  if f = [] then none
  else some (take_line (size - 1) f, f.drop (take_line (size - 1) f).length)

/-- The C string held by a buffer: the characters before its first NUL. -/
def cstr (buf : List Char) : List Char :=
  buf.takeWhile (fun c => c ≠ '\x00')

/-! ## Patch script parser -/

/-- The C struct `PATCH`. -/
structure PATCH where
  off : Nat
  skip : Bool
  ov : Nat
  nv : Nat
deriving DecidableEq, Repr

/-- What the first part of the loop body makes of one buffer, up to and including the third
conversion: `malformed` for the three `malformed line` exits and the missing newline,
`blank` for the `continue`, otherwise the three converted values (the two bytes already
narrowed to `uint8_t`). -/
inductive Line where
  | malformed
  | blank
  | op (off ov nv : Nat)
deriving DecidableEq, Repr

/-- The text that the conversions see: the C string up to its newline, without a carriage
return directly before the newline, cut at the first `#` or `;`. -/
def strip_line (buf : List Char) : List Char :=
  let l := (cstr buf).takeWhile (fun c => c ≠ '\n')
  let l := if l.getLast? = some '\r' then l.dropLast else l
  l.takeWhile (fun c => c ≠ '#' ∧ c ≠ ';')

/-- Lines 126-164 of `apply_patch`, on the buffer filled by `fgets`. -/
def scan_line (buf : List Char) : Line :=
  if '\n' ∉ cstr buf then .malformed
  else if strip_line buf = [] then .blank
  else
    let c1 := strtoull (strip_line buf)
    if c1.errno ∨ ¬ c1.moved then .malformed
    else
      let c2 := strtoull c1.endp
      if c2.errno ∨ ¬ c2.moved then .malformed
      else
        let c3 := strtoull c2.endp
        if c3.errno ∨ ¬ c3.moved then .malformed
        else .op c1.value (c2.value % 256) (c3.value % 256)

/-- Platform parameters of `apply_patch`: the `<stdio.h>` constant `BUFSIZ` and the
behaviour of `realloc`, given as the predicate telling for which byte sizes the request
succeeds. -/
structure Env where
  BUFSIZ : Nat
  realloc_ok : Nat → Bool

/-- The value of `sizeof(PATCH)`: an 8-byte `size_t`, a 4-byte `int`, two bytes, padding. -/
def sizeof_PATCH : Nat := 16

/-- Reasons for which the parse loop leaves with `rv = -1`. -/
inductive ParseError where
  | malformed
  | too_big (off : Nat)
  | out_of_memory
deriving DecidableEq, Repr

/-- State in which the parse loop is left. `overrun` stands for the store
`patches[len++] = patch` past the end of the array, which C leaves undefined: it needs the
capacity `max` to wrap around to 0, after `2 ^ 31` operations. -/
inductive Parsed where
  | ok (patches : List PATCH)
  | error (e : ParseError)
  | overrun
deriving DecidableEq, Repr

/-- How one iteration of the parse loop ends: with a `break` or the exhausted stream
(`leave`), or ready for the next `fgets` with the array and its capacity (`next`). -/
inductive Step where
  | leave (r : Parsed)
  | next (patches : List PATCH) (max : Nat)
deriving DecidableEq, Repr

/-- The body of the parse loop (lines 125-190 of `apply_patch`) on the buffer filled by
`fgets`, with `len = patches.length`. -/
def loop_body (env : Env) (length : Nat) (undo : Bool) (buf : List Char)
    (patches : List PATCH) (max : Nat) : Step :=
  match scan_line buf with
  | .malformed => .leave (.error .malformed)
  | .blank => .next patches max
  | .op off ov nv =>
    if off > length then .leave (.error (.too_big off))
    else
      let max1 :=
        if patches.length ≥ max then ((if max = 0 then 8 else max) * 2) % 2 ^ 32 else max
      if patches.length ≥ max ∧ env.realloc_ok (max1 * sizeof_PATCH) = false then
        .leave (.error .out_of_memory)
      else if patches.length ≥ max1 then .leave .overrun
      else
        .next (patches ++ [if undo then ⟨off, false, nv, ov⟩ else ⟨off, false, ov, nv⟩]) max1

/-- The loop `while (fgets(buf, sizeof(buf), f))` of `apply_patch` (lines 124-191). The
first argument bounds the number of iterations; `none` means the bound was too small. -/
def parse_loop (env : Env) (length : Nat) (undo : Bool) :
    Nat → List Char → List PATCH → Nat → Option Parsed
  | 0, _, _, _ => none
  | fuel + 1, f, patches, max =>
    match fgets env.BUFSIZ f with
    | none => some (.ok patches)
    | some (buf, rest) =>
      match loop_body env length undo buf patches max with
      | .leave r => some r
      | .next patches1 max1 => parse_loop env length undo fuel rest patches1 max1

/-- The parse pass of `apply_patch` on the whole patch file. Every iteration that goes on
consumes at least the newline it found, so `f.length + 1` iterations are enough. -/
def parse_pass (env : Env) (length : Nat) (undo : Bool) (f : List Char) : Option Parsed :=
  parse_loop env length undo (f.length + 1) f [] 0

/-! ## Resource handle -/

/-- Modelled from the spec: the handle type `FHANDLE` of `libvfs/vfs.h`, which is not
among the sources. The record holds the methods that `apply_patch` calls on a handle whose
state has type `σ`: `length() -> integer size or failure` (negative on failure),
`seek(offset, origin) -> resulting absolute offset` (called with `SEEK_SET` only),
`read(buffer, 1) -> bytes actually read` together with the byte stored in the buffer, and
`write(buffer, 1) -> bytes actually written` for the byte given. -/
structure FHANDLE (σ : Type) where
  length : σ → Int
  lseek : σ → Nat → σ × Nat
  read1 : σ → σ × Nat × Nat
  write1 : σ → Nat → σ × Nat

/-- Lines that `apply_patch` prints on `stderr`. -/
inductive Msg where
  | cannot_open
  | parse (e : ParseError)
  | cannot_seek (off : Nat)
  | cannot_read (off : Nat)
  | already_patched (off cv : Nat)
  | mismatch (off cv ov : Nat)
  | cannot_patch (off : Nat)
deriving DecidableEq, Repr

/-- State after one of the two loops over `patches`: the handle, `rv`, the array and the
lines printed. -/
structure Pass (σ : Type) where
  fd : σ
  rv : Int
  patches : List PATCH
  err : List Msg
deriving DecidableEq, Repr

/-- The validation loop of `apply_patch` (lines 200-230) over the not yet visited part of
`patches`. A `break` leaves the rest of the array as it is. -/
def validate_loop {σ : Type} (io : FHANDLE σ) (force : Bool) : σ → List PATCH → Pass σ
  | fd, [] => ⟨fd, 0, [], []⟩
  | fd, p :: ps =>
    let s := io.lseek fd p.off
    if s.2 ≠ p.off then ⟨s.1, -1, p :: ps, [.cannot_seek p.off]⟩
    else
      let r := io.read1 s.1
      if r.2.1 ≠ 1 then ⟨r.1, -1, p :: ps, [.cannot_read s.2]⟩
      else if r.2.2 ≠ p.ov ∧ r.2.2 ≠ p.nv then
        ⟨r.1, if force then 0 else -1, p :: ps, [.mismatch s.2 r.2.2 p.ov]⟩
      else
        let v := validate_loop io force r.1 ps
        ⟨v.fd, v.rv, { p with skip := r.2.2 = p.nv } :: v.patches,
          (if r.2.2 ≠ p.ov then [.already_patched s.2 r.2.2] else []) ++ v.err⟩

/-- The write loop of `apply_patch` (lines 237-255) over the not yet visited part of
`patches`. -/
def write_loop {σ : Type} (io : FHANDLE σ) : σ → List PATCH → Pass σ
  | fd, [] => ⟨fd, 0, [], []⟩
  | fd, p :: ps =>
    if p.skip then
      let w := write_loop io fd ps
      ⟨w.fd, w.rv, p :: w.patches, w.err⟩
    else
      let s := io.lseek fd p.off
      if s.2 ≠ p.off then ⟨s.1, -1, p :: ps, [.cannot_seek p.off]⟩
      else
        let w := io.write1 s.1 p.nv
        if w.2 ≠ 1 then ⟨w.1, -1, p :: ps, [.cannot_patch s.2]⟩
        else
          let t := write_loop io w.1 ps
          ⟨t.fd, t.rv, p :: t.patches, t.err⟩

/-- What a call of `apply_patch` leaves: the value returned, the handle, the lines printed. -/
structure Ret (σ : Type) where
  rv : Int
  fd : σ
  err : List Msg
deriving DecidableEq, Repr

/-- The function `apply_patch(fd, patchfile, force, undo)`. The patch file is given by its
content, `none` when `fopen` fails. The result is `none` where the embedding assigns no
behaviour: when the parse loop stores past the end of `patches` (and for an exhausted
iteration bound, which `parse_pass` never meets). -/
def apply_patch {σ : Type} (env : Env) (io : FHANDLE σ) (fd : σ)
    (patchfile : Option (List Char)) (force undo : Bool) : Option (Ret σ) :=
  if io.length fd < 0 then some ⟨-1, fd, []⟩
  else
    match patchfile with
    | none => some ⟨-1, fd, [.cannot_open]⟩
    | some f =>
      match parse_pass env (io.length fd).toNat undo f with
      | none => none
      | some .overrun => none
      | some (.error e) => some ⟨-1, fd, [.parse e]⟩
      | some (.ok patches) =>
        let v := validate_loop io force fd patches
        if v.rv ≠ 0 then some ⟨v.rv, v.fd, v.err⟩
        else
          let w := write_loop io v.fd v.patches
          some ⟨w.rv, w.fd, v.err ++ w.err⟩

/-! ## A resource held in memory -/

/-- Method calls that change or read the content of a resource. -/
inductive Call where
  | lseek (off : Nat)
  | read
  | write (b : Nat)
deriving DecidableEq, Repr

/-- Modelled from the spec: a resource is "a byte sequence of known length, exposing
absolute seek + single-byte read + single-byte write". The state is the byte sequence, the
current position and the record of the calls made so far. -/
structure MemFile where
  data : List Nat
  pos : Nat
  calls : List Call
deriving DecidableEq, Repr

/-- Modelled from the spec: the methods of a resource held in memory. Every seek lands on
the offset asked for; a read or write of one byte succeeds at a position below the length
(an offset "must be `< resource_length` to be writable") and transfers nothing at or past
the end. -/
def MemFile.io : FHANDLE MemFile where
  length m := m.data.length
  lseek m off := ({ m with pos := off, calls := m.calls ++ [.lseek off] }, off)
  read1 m :=
    match m.data[m.pos]? with
    | some b => ({ m with pos := m.pos + 1, calls := m.calls ++ [.read] }, 1, b)
    | none => ({ m with calls := m.calls ++ [.read] }, 0, 0)
  write1 m b :=
    if m.pos < m.data.length then
      ({ data := m.data.set m.pos b, pos := m.pos + 1, calls := m.calls ++ [.write b] }, 1)
    else ({ m with calls := m.calls ++ [.write b] }, 0)

/-- A resource with the given content, positioned at its start, with no call made yet. -/
def MemFile.of (data : List Nat) : MemFile := ⟨data, 0, []⟩

/-- Whether a call is a write. -/
def Call.is_write : Call → Bool
  | .write _ => true
  | _ => false

/-- Modelled from the spec: what makes a handle a byte store, "a byte sequence of known
length, exposing absolute seek + single-byte read + single-byte write", for any state type.
The state has a content and a position; a seek and a read leave the content alone, a seek
that lands on the offset asked for sets the position, a write that reports one byte leaves
that byte at the position, a write that reports another count leaves the content alone, and
no write touches another offset. -/
structure ByteStore {σ : Type} (io : FHANDLE σ) where
  content : σ → List Nat
  pos : σ → Nat
  lseek_content : ∀ fd off, content (io.lseek fd off).1 = content fd
  lseek_pos : ∀ fd off, (io.lseek fd off).2 = off → pos (io.lseek fd off).1 = off
  read_content : ∀ fd, content (io.read1 fd).1 = content fd
  write_at : ∀ fd b, (io.write1 fd b).2 = 1 → (content (io.write1 fd b).1)[pos fd]? = some b
  write_other : ∀ fd b i, i ≠ pos fd → (content (io.write1 fd b).1)[i]? = (content fd)[i]?
  write_failed : ∀ fd b, (io.write1 fd b).2 ≠ 1 → content (io.write1 fd b).1 = content fd

/-- The resource held in memory is a byte store. -/
def MemFile.store : ByteStore MemFile.io where
  content m := m.data
  pos m := m.pos
  lseek_content _ _ := rfl
  lseek_pos _ _ _ := rfl
  read_content m := by
    show (MemFile.io.read1 m).1.data = m.data
    simp only [MemFile.io]
    split <;> rfl
  write_at m b h := by
    show (MemFile.io.write1 m b).1.data[m.pos]? = some b
    simp only [MemFile.io] at h ⊢
    split
    · rename_i hl
      simp [List.getElem?_set_self, hl]
    · rename_i hl
      rw [if_neg hl] at h
      simp at h
  write_other m b i hi := by
    show (MemFile.io.write1 m b).1.data[i]? = m.data[i]?
    simp only [MemFile.io]
    split
    · exact List.getElem?_set_ne (Ne.symm hi)
    · rfl
  write_failed m b h := by
    show (MemFile.io.write1 m b).1.data = m.data
    simp only [MemFile.io] at h ⊢
    split
    · rename_i hl
      rw [if_pos hl] at h
      simp at h
    · rfl

/-! ## Stream materializer -/

/-- Modelled from the spec: the source handle as `make_img4` and `replace_img4` use it,
given by what its methods return: the value of `src->length(src)` (a `size_t`) and the
results of the successive calls `src->read(src, xfer, sizeof(xfer))` ("bytes actually
read", negative for an error). After the last listed result, `read` returns 0. -/
structure Source where
  length : Nat
  reads : List Int
deriving DecidableEq, Repr

/-- Calls made on the destination handle. -/
inductive SinkCall where
  | ftruncate (length : Nat)
  | lseek (off : Nat)
  | write (n : Int)
  | close
deriving DecidableEq, Repr

/-- Modelled from the spec: the destination handle returned by `img4_reopen`, given by what
its methods return: the result of `ftruncate` ("success/failure", 0 being success), the
result of `lseek` ("resulting absolute offset"), and the results of the successive `write`
calls ("bytes actually written"); after the last listed result, `write` returns 0. The
calls made so far are recorded. -/
structure Sink where
  truncated : Int
  sought : Int
  writes : List Int
  calls : List SinkCall
deriving DecidableEq, Repr

/-- The call `fd->ftruncate(fd, length)`. -/
def Sink.ftruncate (fd : Sink) (length : Nat) : Sink × Int :=
  ({ fd with calls := fd.calls ++ [.ftruncate length] }, fd.truncated)

/-- The call `fd->lseek(fd, off, SEEK_SET)`. -/
def Sink.lseek (fd : Sink) (off : Nat) : Sink × Int :=
  ({ fd with calls := fd.calls ++ [.lseek off] }, fd.sought)

/-- The call `fd->write(fd, xfer, n)`. -/
def Sink.write (fd : Sink) (n : Int) : Sink × Int :=
  ({ fd with writes := fd.writes.tail, calls := fd.calls ++ [.write n] }, fd.writes.headD 0)

/-- The call `fd->close(fd)`. -/
def Sink.close (fd : Sink) : Sink :=
  { fd with calls := fd.calls ++ [.close] }

/-- State in which the copy loop is left: the destination handle, the counter `total`, and
the number of bytes that the destination accepted. -/
structure Copy where
  fd : Sink
  total : Nat
  sent : Int
deriving DecidableEq, Repr

/-- The loop `for (;;)` shared by `make_img4` (lines 291-302) and `replace_img4` (lines
331-342), over the results that `src->read` is still to return. `total -= written` is
computed in `size_t`. -/
def copy_loop : List Int → Sink → Nat → Int → Copy
  | [], fd, total, sent => ⟨fd, total, sent⟩
  | n :: reads, fd, total, sent =>
    if n ≤ 0 then ⟨fd, total, sent⟩
    else
      let w := fd.write n
      if w.2 ≠ n then ⟨w.1, total, sent + max w.2 0⟩
      else copy_loop reads w.1 (((total : Int) - w.2) % 2 ^ 64).toNat (sent + w.2)

/-- What a call of `make_img4` or `replace_img4` leaves: the handle returned (`none` for
NULL), the destination handle in its last state if `img4_reopen` gave one, and the number
of bytes that the destination accepted. -/
structure Materialized where
  ret : Option Sink
  dest : Option Sink
  sent : Int
deriving DecidableEq, Repr

/-- The function `make_img4(iname, &orig)`. Its collaborators are given by their results:
`src` is what `file_open` returns, `malloc_ok` and `memory_open_ok` tell whether `malloc`
and `memory_open` succeed, `reopened` is what `img4_reopen` returns. -/
def make_img4 (src : Option Source) (malloc_ok memory_open_ok : Bool)
    (reopened : Option Sink) : Materialized :=
  match src with
  | none => ⟨none, none, 0⟩
  | some src =>
    if malloc_ok = false then ⟨none, none, 0⟩
    else if memory_open_ok = false then ⟨none, none, 0⟩
    else
      match reopened with
      | none => ⟨none, none, 0⟩
      | some fd =>
        let fd := (fd.lseek 0).1
        let c := copy_loop src.reads fd src.length 0
        if c.total ≠ 0 then ⟨none, some c.fd.close, c.sent⟩
        else ⟨some c.fd, some c.fd, c.sent⟩

/-- The function `replace_img4(iname, replacer, &orig)`. Its collaborators are given by
their results: `src` is what `file_open` returns for the replacement,
`memory_open_ok` tells whether `memory_open_from_file` succeeds, `reopened` is what
`img4_reopen` returns. -/
def replace_img4 (src : Option Source) (memory_open_ok : Bool)
    (reopened : Option Sink) : Materialized :=
  match src with
  | none => ⟨none, none, 0⟩
  | some src =>
    if memory_open_ok = false then ⟨none, none, 0⟩
    else
      match reopened with
      | none => ⟨none, none, 0⟩
      | some fd =>
        let fd := (fd.ftruncate src.length).1
        let fd := (fd.lseek 0).1
        let c := copy_loop src.reads fd src.length 0
        if c.total ≠ 0 then ⟨none, some c.fd.close, c.sent⟩
        else ⟨some c.fd, some c.fd, c.sent⟩

/-! ## Notions used in the statements -/

/-- A platform for concrete runs: `BUFSIZ` is 1024 as on Darwin, `realloc` never fails. -/
def Env.darwin : Env := ⟨1024, fun _ => true⟩

/-- The resolution that the validation loop gives an operation whose offset holds its old
or its new value in `data`: `skip` exactly when the byte there is the new value. -/
def resolve (data : List Nat) (p : PATCH) : PATCH :=
  { p with skip := data[p.off]? = some p.nv }

/-- Content that the write loop leaves when each of its writes succeeds: the new value of
every operation not marked `skip` is stored at its offset, in the order of the array. -/
def patched (data : List Nat) : List PATCH → List Nat
  | [] => data
  | p :: ps => patched (if p.skip then data else data.set p.off p.nv) ps

/-- The operation with old and new value exchanged, as undo mode stores it. -/
def PATCH.swap (p : PATCH) : PATCH :=
  { p with ov := p.nv, nv := p.ov }

/-- Exchange of old and new value in every operation of a parse result. -/
def Parsed.swap : Parsed → Parsed
  | .ok patches => .ok (patches.map PATCH.swap)
  | r => r

/-- The parse loop started on the unread part `f` of the patch file with the array
`patches` of capacity `max`, given as many iterations as `parse_pass` gives it. -/
def parse_from (env : Env) (length : Nat) (undo : Bool) (f : List Char)
    (patches : List PATCH) (max : Nat) : Option Parsed :=
  parse_loop env length undo (f.length + 1) f patches max

/-- A conversion failed in the sense tested after each `strtoull`/`strtoul` call of the
parse loop: `errno` is set, or the end pointer did not move. -/
def Conv.failed (c : Conv) : Prop :=
  c.errno = true ∨ c.moved = false

/-- One of the three numeric literals of a line cannot be converted, the second and third
being looked for where the conversion before ended. -/
def literal_fails (s : List Char) : Prop :=
  (strtoull s).failed ∨ (strtoull (strtoull s).endp).failed ∨
    (strtoull (strtoull (strtoull s).endp).endp).failed

/-- A line without its comment, in the words of the specification: "any `#` or `;` and
everything after it on the line is discarded". -/
def uncomment (l : List Char) : List Char :=
  l.takeWhile (fun c => c ≠ '#' ∧ c ≠ ';')

/-- The script whose lines are `ls`, each of them terminated by a newline. -/
def unlines : List (List Char) → List Char
  | [] => []
  | l :: ls => l ++ '\n' :: unlines ls

/-- The lines of a script after comment stripping, in the words of the specification: on
every line the comment is discarded, and "a line that is empty after comment-stripping is
skipped". -/
def strip_comments (ls : List (List Char)) : List (List Char) :=
  (ls.map uncomment).filter (fun l => l ≠ [])

/-- Number of bytes that a source yields through the listed read results, up to its first
result that is not positive. -/
def yield : List Int → Int
  | [] => 0
  | n :: reads => if n ≤ 0 then 0 else n + yield reads

/-- The text consists of blanks. -/
def blank (w : List Char) : Prop :=
  ∀ c ∈ w, isspace c = true

/-- The calls that the validation loop makes for the operations it visits: for each of
them a seek to its offset and a read. -/
def probes : List PATCH → List Call
  | [] => []
  | p :: ps => .lseek p.off :: .read :: probes ps

/-- Operations of a script agree on the new value wherever they share an offset; this holds
in particular when the offsets are pairwise distinct. -/
def Coherent (ops : List PATCH) : Prop :=
  ∀ p ∈ ops, ∀ q ∈ ops, p.off = q.off → p.nv = q.nv

/-! ## The loops of `apply_patch` on a resource held in memory -/

theorem mem_lseek (m : MemFile) (off : Nat) :
    MemFile.io.lseek m off = ({ m with pos := off, calls := m.calls ++ [.lseek off] }, off) :=
  rfl

theorem mem_read1_some (m : MemFile) (b : Nat) (h : m.data[m.pos]? = some b) :
    MemFile.io.read1 m = ({ m with pos := m.pos + 1, calls := m.calls ++ [.read] }, 1, b) := by
  simp only [MemFile.io, h]

theorem mem_read1_none (m : MemFile) (h : m.data[m.pos]? = none) :
    MemFile.io.read1 m = ({ m with calls := m.calls ++ [.read] }, 0, 0) := by
  simp only [MemFile.io, h]

theorem mem_write1 (m : MemFile) (b : Nat) :
    MemFile.io.write1 m b =
      if m.pos < m.data.length then
        ({ data := m.data.set m.pos b, pos := m.pos + 1, calls := m.calls ++ [.write b] }, 1)
      else ({ m with calls := m.calls ++ [.write b] }, 0) :=
  rfl

theorem validate_mem_eof (force : Bool) (p : PATCH) (ps : List PATCH) (m : MemFile)
    (h : m.data[p.off]? = none) :
    validate_loop MemFile.io force m (p :: ps) =
      ⟨{ m with pos := p.off, calls := m.calls ++ [.lseek p.off, .read] }, -1, p :: ps,
        [.cannot_read p.off]⟩ := by
  have hr := mem_read1_none { m with pos := p.off, calls := m.calls ++ [.lseek p.off] } h
  simp [validate_loop, mem_lseek, hr]

theorem validate_mem_clash (force : Bool) (p : PATCH) (ps : List PATCH) (m : MemFile) (b : Nat)
    (h : m.data[p.off]? = some b) (hb : b ≠ p.ov ∧ b ≠ p.nv) :
    validate_loop MemFile.io force m (p :: ps) =
      ⟨{ m with pos := p.off + 1, calls := m.calls ++ [.lseek p.off, .read] },
        if force then 0 else -1, p :: ps, [.mismatch p.off b p.ov]⟩ := by
  have hr := mem_read1_some { m with pos := p.off, calls := m.calls ++ [.lseek p.off] } b h
  simp [validate_loop, mem_lseek, hr, hb]

theorem validate_mem_next (force : Bool) (p : PATCH) (ps : List PATCH) (m : MemFile) (b : Nat)
    (h : m.data[p.off]? = some b) (hb : ¬ (b ≠ p.ov ∧ b ≠ p.nv)) :
    validate_loop MemFile.io force m (p :: ps) =
      ⟨(validate_loop MemFile.io force
          { m with pos := p.off + 1, calls := m.calls ++ [.lseek p.off, .read] } ps).fd,
        (validate_loop MemFile.io force
          { m with pos := p.off + 1, calls := m.calls ++ [.lseek p.off, .read] } ps).rv,
        { p with skip := b = p.nv } :: (validate_loop MemFile.io force
          { m with pos := p.off + 1, calls := m.calls ++ [.lseek p.off, .read] } ps).patches,
        (if b ≠ p.ov then [.already_patched p.off b] else []) ++ (validate_loop MemFile.io force
          { m with pos := p.off + 1, calls := m.calls ++ [.lseek p.off, .read] } ps).err⟩ := by
  have hr := mem_read1_some { m with pos := p.off, calls := m.calls ++ [.lseek p.off] } b h
  simp only [validate_loop, mem_lseek, hr]
  simp only [ne_eq, not_true_eq_false, if_false]
  rw [if_neg hb]
  simp

theorem validate_mem_data (force : Bool) (ps : List PATCH) (m : MemFile) :
    (validate_loop MemFile.io force m ps).fd.data = m.data ∧
    ∃ cs, (validate_loop MemFile.io force m ps).fd.calls = m.calls ++ cs ∧
      ∀ c ∈ cs, c.is_write = false := by
  induction ps generalizing m with
  | nil => exact ⟨rfl, [], by simp [validate_loop]⟩
  | cons p ps ih =>
    cases h : m.data[p.off]? with
    | none =>
      rw [validate_mem_eof force p ps m h]
      exact ⟨rfl, [.lseek p.off, .read], rfl, by simp [Call.is_write]⟩
    | some b =>
      by_cases hb : b ≠ p.ov ∧ b ≠ p.nv
      · rw [validate_mem_clash force p ps m b h hb]
        exact ⟨rfl, [.lseek p.off, .read], rfl, by simp [Call.is_write]⟩
      · rw [validate_mem_next force p ps m b h hb]
        obtain ⟨h1, cs, h2, h3⟩ :=
          ih { m with pos := p.off + 1, calls := m.calls ++ [.lseek p.off, .read] }
        refine ⟨h1, [.lseek p.off, .read] ++ cs, ?_, ?_⟩
        · rw [h2]; simp
        · intro c hc
          simp only [List.mem_append, List.mem_cons, List.mem_singleton] at hc
          rcases hc with (rfl | rfl | hc) | hc
          · rfl
          · rfl
          · simp at hc
          · exact h3 c hc

theorem validate_mem_ok (force : Bool) (ps : List PATCH) (m : MemFile)
    (h : ∀ p ∈ ps, m.data[p.off]? = some p.ov ∨ m.data[p.off]? = some p.nv) :
    (validate_loop MemFile.io force m ps).rv = 0 ∧
    (validate_loop MemFile.io force m ps).patches = ps.map (resolve m.data) ∧
    ∀ o c v, Msg.mismatch o c v ∉ (validate_loop MemFile.io force m ps).err := by
  induction ps generalizing m with
  | nil => simp [validate_loop]
  | cons p ps ih =>
    have hp := h p (List.mem_cons_self _ _)
    cases hb : m.data[p.off]? with
    | none => simp [hb] at hp
    | some b =>
      have hnot : ¬ (b ≠ p.ov ∧ b ≠ p.nv) := by
        rw [hb] at hp
        rcases hp with hp | hp <;> simp at hp <;> simp [hp]
      rw [validate_mem_next force p ps m b hb hnot]
      obtain ⟨h1, h2, h3⟩ :=
        ih { m with pos := p.off + 1, calls := m.calls ++ [.lseek p.off, .read] }
          (fun q hq => h q (List.mem_cons_of_mem _ hq))
      refine ⟨h1, ?_, ?_⟩
      · simp only [h2, List.map_cons, resolve, hb, Option.some.injEq]
      · intro o c v hmem
        simp only [List.mem_append] at hmem
        rcases hmem with hmem | hmem
        · split at hmem <;> simp at hmem
        · exact h3 o c v hmem

theorem validate_mem_conflict (ps : List PATCH) (m : MemFile)
    (h : ∃ p ∈ ps, ¬ (m.data[p.off]? = some p.ov ∨ m.data[p.off]? = some p.nv)) :
    (validate_loop MemFile.io false m ps).rv = -1 := by
  induction ps generalizing m with
  | nil => simp at h
  | cons p ps ih =>
    cases hb : m.data[p.off]? with
    | none => rw [validate_mem_eof false p ps m hb]
    | some b =>
      by_cases hc : b ≠ p.ov ∧ b ≠ p.nv
      · rw [validate_mem_clash false p ps m b hb hc]
        rfl
      · rw [validate_mem_next false p ps m b hb hc]
        apply ih
        obtain ⟨q, hq, hbad⟩ := h
        rcases List.mem_cons.mp hq with rfl | hq
        · exfalso; apply hbad
          rw [hb]
          by_cases h1 : b = q.ov
          · left; rw [h1]
          · right; push_neg at hc; rw [hc h1]
        · exact ⟨q, hq, hbad⟩

theorem write_mem_skip (p : PATCH) (ps : List PATCH) (m : MemFile) (h : p.skip = true) :
    write_loop MemFile.io m (p :: ps) =
      ⟨(write_loop MemFile.io m ps).fd, (write_loop MemFile.io m ps).rv,
        p :: (write_loop MemFile.io m ps).patches, (write_loop MemFile.io m ps).err⟩ := by
  simp [write_loop, h]

theorem write_mem_next (p : PATCH) (ps : List PATCH) (m : MemFile) (h : p.skip = false)
    (hl : p.off < m.data.length) :
    write_loop MemFile.io m (p :: ps) =
      ⟨(write_loop MemFile.io
          ⟨m.data.set p.off p.nv, p.off + 1, m.calls ++ [.lseek p.off, .write p.nv]⟩ ps).fd,
        (write_loop MemFile.io
          ⟨m.data.set p.off p.nv, p.off + 1, m.calls ++ [.lseek p.off, .write p.nv]⟩ ps).rv,
        p :: (write_loop MemFile.io
          ⟨m.data.set p.off p.nv, p.off + 1, m.calls ++ [.lseek p.off, .write p.nv]⟩ ps).patches,
        (write_loop MemFile.io
          ⟨m.data.set p.off p.nv, p.off + 1, m.calls ++ [.lseek p.off, .write p.nv]⟩ ps).err⟩ := by
  simp [write_loop, h, mem_lseek, mem_write1, hl]

theorem write_mem_ok (ps : List PATCH) (m : MemFile)
    (h : ∀ p ∈ ps, p.skip = false → p.off < m.data.length) :
    (write_loop MemFile.io m ps).rv = 0 ∧
    (write_loop MemFile.io m ps).fd.data = patched m.data ps ∧
    (write_loop MemFile.io m ps).err = [] := by
  induction ps generalizing m with
  | nil => simp [write_loop, patched]
  | cons p ps ih =>
    by_cases hs : p.skip = true
    · rw [write_mem_skip p ps m hs]
      simp only [hs, if_true, patched]
      exact ih m (fun q hq => h q (List.mem_cons_of_mem _ hq))
    · have hs : p.skip = false := by simpa using hs
      have hl := h p (List.mem_cons_self _ _) hs
      rw [write_mem_next p ps m hs hl]
      simp only [hs, patched]
      apply ih
      intro q hq hqs
      simpa using h q (List.mem_cons_of_mem _ hq) hqs

theorem write_mem_all_skip (ps : List PATCH) (m : MemFile) (h : ∀ p ∈ ps, p.skip = true) :
    (write_loop MemFile.io m ps).rv = 0 ∧ (write_loop MemFile.io m ps).fd = m ∧
    (write_loop MemFile.io m ps).err = [] := by
  induction ps generalizing m with
  | nil => simp [write_loop]
  | cons p ps ih =>
    rw [write_mem_skip p ps m (h p (List.mem_cons_self _ _))]
    exact ih m (fun q hq => h q (List.mem_cons_of_mem _ hq))

theorem patched_length (ps : List PATCH) (data : List Nat) :
    (patched data ps).length = data.length := by
  induction ps generalizing data with
  | nil => rfl
  | cons p ps ih =>
    simp only [patched]
    rw [ih]
    split <;> simp

theorem patched_untouched (ps : List PATCH) (data : List Nat) (o : Nat)
    (h : ∀ p ∈ ps, p.skip = false → p.off ≠ o) :
    (patched data ps)[o]? = data[o]? := by
  induction ps generalizing data with
  | nil => rfl
  | cons p ps ih =>
    simp only [patched]
    rw [ih _ (fun q hq => h q (List.mem_cons_of_mem _ hq))]
    by_cases hs : p.skip
    · simp [hs]
    · have := h p (List.mem_cons_self _ _) (by simpa using hs)
      simp [hs, List.getElem?_set_ne this]

theorem patched_new_value (ps : List PATCH) (data : List Nat)
    (hcoh : ∀ p ∈ ps, ∀ q ∈ ps, p.off = q.off → p.nv = q.nv)
    (hlen : ∀ p ∈ ps, p.off < data.length)
    (hskip : ∀ p ∈ ps, p.skip = true → data[p.off]? = some p.nv) :
    ∀ p ∈ ps, (patched data ps)[p.off]? = some p.nv := by
  induction ps generalizing data with
  | nil => simp
  | cons p ps ih =>
    have hstep : ∀ q ∈ ps, (patched data (p :: ps))[q.off]? = some q.nv := by
      simp only [patched]
      apply ih
      · exact fun a ha b hb => hcoh a (List.mem_cons_of_mem _ ha) b (List.mem_cons_of_mem _ hb)
      · intro q hq
        have := hlen q (List.mem_cons_of_mem _ hq)
        split <;> simpa using this
      · intro q hq hqs
        have hq1 := hskip q (List.mem_cons_of_mem _ hq) hqs
        by_cases hs : p.skip
        · simpa [hs] using hq1
        · simp only [hs]
          by_cases ho : p.off = q.off
          · have hv := hcoh p (List.mem_cons_self _ _) q (List.mem_cons_of_mem _ hq) ho
            have := hlen p (List.mem_cons_self _ _)
            simp [← ho, hv, List.getElem?_set_self, this]
          · simpa [List.getElem?_set_ne ho] using hq1
    intro q hq
    rcases List.mem_cons.mp hq with rfl | hq
    · by_cases hex : ∃ r ∈ ps, r.off = q.off
      · obtain ⟨r, hr, hro⟩ := hex
        rw [← hro, hstep r hr]
        exact congrArg some (hcoh r (List.mem_cons_of_mem _ hr) q (List.mem_cons_self _ _) hro)
      · push_neg at hex
        simp only [patched]
        rw [patched_untouched _ _ _ (fun r hr _ => hex r hr)]
        by_cases hs : q.skip
        · simpa [hs] using hskip q (List.mem_cons_self _ _) hs
        · have := hlen q (List.mem_cons_self _ _)
          simp [hs, List.getElem?_set_self, this]
    · exact hstep q hq


theorem fits_lt (data : List Nat) (p : PATCH)
    (h : data[p.off]? = some p.ov ∨ data[p.off]? = some p.nv) : p.off < data.length := by
  rcases h with h | h <;> exact (List.getElem?_eq_some_iff.mp h).1

theorem validate_mem_fits (ps : List PATCH) (m : MemFile)
    (h : (validate_loop MemFile.io false m ps).rv = 0) :
    ∀ p ∈ ps, m.data[p.off]? = some p.ov ∨ m.data[p.off]? = some p.nv := by
  by_contra hne
  push_neg at hne
  obtain ⟨p, hp, h1, h2⟩ := hne
  have := validate_mem_conflict ps m ⟨p, hp, by simp [h1, h2]⟩
  rw [this] at h
  exact absurd h (by decide)

theorem apply_mem_unfold (env : Env) (m : MemFile) (f : List Char) (force undo : Bool)
    (ops : List PATCH) (hparse : parse_pass env m.data.length undo f = some (.ok ops)) :
    apply_patch env MemFile.io m (some f) force undo =
      if (validate_loop MemFile.io force m ops).rv ≠ 0 then
        some ⟨(validate_loop MemFile.io force m ops).rv, (validate_loop MemFile.io force m ops).fd,
          (validate_loop MemFile.io force m ops).err⟩
      else
        some ⟨(write_loop MemFile.io (validate_loop MemFile.io force m ops).fd
            (validate_loop MemFile.io force m ops).patches).rv,
          (write_loop MemFile.io (validate_loop MemFile.io force m ops).fd
            (validate_loop MemFile.io force m ops).patches).fd,
          (validate_loop MemFile.io force m ops).err ++
            (write_loop MemFile.io (validate_loop MemFile.io force m ops).fd
              (validate_loop MemFile.io force m ops).patches).err⟩ := by
  have hl : MemFile.io.length m = (m.data.length : Int) := rfl
  simp only [apply_patch, hl, Int.toNat_ofNat, hparse]
  simp

/-- What `apply_patch` does on a resource in memory when every operation finds its old or
its new value: it returns 0 and leaves the content `patched`. -/
theorem apply_mem_ok (env : Env) (m : MemFile) (f : List Char) (force undo : Bool)
    (ops : List PATCH) (hparse : parse_pass env m.data.length undo f = some (.ok ops))
    (hfit : ∀ p ∈ ops, m.data[p.off]? = some p.ov ∨ m.data[p.off]? = some p.nv) :
    ∃ r, apply_patch env MemFile.io m (some f) force undo = some r ∧ r.rv = 0 ∧
      r.fd.data = patched m.data (ops.map (resolve m.data)) ∧
      r.fd = (write_loop MemFile.io (validate_loop MemFile.io force m ops).fd
        (ops.map (resolve m.data))).fd ∧
      (∀ o c v, Msg.mismatch o c v ∉ r.err) := by
  obtain ⟨hv1, hv2, hv3⟩ := validate_mem_ok force ops m hfit
  obtain ⟨hd, -⟩ := validate_mem_data force ops m
  rw [apply_mem_unfold env m f force undo ops hparse, hv1, hv2]
  have hw := write_mem_ok (ops.map (resolve m.data)) (validate_loop MemFile.io force m ops).fd
    (by
      intro p hp _
      obtain ⟨q, hq, rfl⟩ := List.mem_map.mp hp
      rw [hd]
      exact fits_lt m.data q (hfit q hq))
  rw [if_neg (by simp)]
  refine ⟨_, rfl, hw.1, ?_, rfl, ?_⟩
  · show (write_loop MemFile.io _ _).fd.data = _
    rw [hw.2.1, hd]
  · intro o c v hmem
    change Msg.mismatch o c v ∈ (validate_loop MemFile.io force m ops).err ++ _ at hmem
    rw [hw.2.2, List.append_nil] at hmem
    exact hv3 o c v hmem

theorem coherent_resolve (data : List Nat) (ops : List PATCH) (h : Coherent ops) :
    Coherent (ops.map (resolve data)) := by
  intro p hp q hq hpq
  obtain ⟨a, ha, rfl⟩ := List.mem_map.mp hp
  obtain ⟨b, hb, rfl⟩ := List.mem_map.mp hq
  exact h a ha b hb hpq

/-- Content after a successful run under `Coherent`: every operation finds its new value. -/
theorem patched_resolve_new (data : List Nat) (ops : List PATCH) (hcoh : Coherent ops)
    (hfit : ∀ p ∈ ops, data[p.off]? = some p.ov ∨ data[p.off]? = some p.nv) :
    ∀ p ∈ ops, (patched data (ops.map (resolve data)))[p.off]? = some p.nv := by
  intro p hp
  have := patched_new_value (ops.map (resolve data)) data (coherent_resolve data ops hcoh)
    (by
      intro q hq
      obtain ⟨a, ha, rfl⟩ := List.mem_map.mp hq
      exact fits_lt data a (hfit a ha))
    (by
      intro q hq hs
      obtain ⟨a, ha, rfl⟩ := List.mem_map.mp hq
      simpa [resolve] using hs)
    (resolve data p) (List.mem_map_of_mem _ hp)
  exact this


/-! ## Undo mode in the parse loop -/

theorem loop_body_undo (env : Env) (length : Nat) (buf : List Char) (ps : List PATCH)
    (max : Nat) :
    loop_body env length true buf (ps.map PATCH.swap) max =
      match loop_body env length false buf ps max with
      | .leave r => .leave r.swap
      | .next ps1 max1 => .next (ps1.map PATCH.swap) max1 := by
  unfold loop_body
  cases hs : scan_line buf with
  | malformed => rfl
  | blank => rfl
  | op off ov nv =>
    simp only [List.length_map]
    by_cases h1 : off > length
    · simp [h1, Parsed.swap]
    · simp only [h1, if_false]
      generalize (if ps.length ≥ max then ((if max = 0 then 8 else max) * 2) % 2 ^ 32
        else max) = max1
      by_cases h2 : ps.length ≥ max ∧ env.realloc_ok (max1 * sizeof_PATCH) = false
      · simp [h2, Parsed.swap]
      · rw [if_neg h2, if_neg h2]
        by_cases h3 : ps.length ≥ max1
        · simp [h3, Parsed.swap]
        · rw [if_neg h3, if_neg h3]
          simp [PATCH.swap]

theorem parse_loop_undo (env : Env) (length : Nat) (fuel : Nat) (f : List Char)
    (ps : List PATCH) (max : Nat) :
    parse_loop env length true fuel f (ps.map PATCH.swap) max =
      (parse_loop env length false fuel f ps max).map Parsed.swap := by
  induction fuel generalizing f ps max with
  | zero => rfl
  | succ n ih =>
    simp only [parse_loop]
    cases hf : fgets env.BUFSIZ f with
    | none => simp [Parsed.swap]
    | some br =>
      obtain ⟨buf, rest⟩ := br
      simp only [loop_body_undo]
      cases hb : loop_body env length false buf ps max with
      | leave r => simp
      | next ps1 max1 => simp only; exact ih rest ps1 max1

theorem parse_pass_undo (env : Env) (length : Nat) (f : List Char) (ops : List PATCH)
    (h : parse_pass env length false f = some (.ok ops)) :
    parse_pass env length true f = some (.ok (ops.map PATCH.swap)) := by
  have := parse_loop_undo env length (f.length + 1) f [] 0
  simp only [List.map_nil] at this
  unfold parse_pass at h ⊢
  rw [this, h]
  rfl


/-! ## The parse loop, line by line -/

theorem take_line_append_drop (n : Nat) (f : List Char) :
    take_line n f ++ f.drop (take_line n f).length = f := by
  induction n generalizing f with
  | zero => simp [take_line]
  | succ n ih =>
    cases f with
    | nil => simp [take_line]
    | cons c cs =>
      simp only [take_line]
      split
      · simp
      · simp [ih cs]

theorem take_line_length_le (n : Nat) (f : List Char) : (take_line n f).length ≤ f.length := by
  have := congrArg List.length (take_line_append_drop n f)
  simp only [List.length_append] at this
  omega

theorem take_line_append (n : Nat) (pre X : List Char) (h : '\n' ∈ pre) :
    take_line n (pre ++ X) = take_line n pre := by
  induction n generalizing pre with
  | zero => simp [take_line]
  | succ n ih =>
    cases pre with
    | nil => simp at h
    | cons c cs =>
      simp only [List.cons_append, take_line]
      split
      · rfl
      · rename_i hc
        have : '\n' ∈ cs := by
          rcases List.mem_cons.mp h with h | h
          · exact absurd h.symm hc
          · exact h
        simp only [List.append_eq, ih cs this]

theorem take_line_last (n : Nat) (f : List Char) (h : '\n' ∈ take_line n f) :
    (take_line n f).getLast? = some '\n' := by
  induction n generalizing f with
  | zero => simp [take_line] at h
  | succ n ih =>
    cases f with
    | nil => simp [take_line] at h
    | cons c cs =>
      simp only [take_line] at h ⊢
      split
      · rename_i hc; simp [hc]
      · rename_i hc
        rw [if_neg hc] at h
        have h2 : '\n' ∈ take_line n cs := by
          rcases List.mem_cons.mp h with h | h
          · exact absurd h.symm hc
          · exact h
        have h3 := ih cs h2
        cases ht : take_line n cs with
        | nil => rw [ht] at h2; simp at h2
        | cons d ds => rw [List.getLast?_cons_cons, ← ht]; exact h3

theorem take_line_of_line (n : Nat) (l rest : List Char) (h : '\n' ∉ l) (hn : l.length < n) :
    take_line n (l ++ '\n' :: rest) = l ++ ['\n'] := by
  induction l generalizing n with
  | nil =>
    cases n with
    | zero => simp at hn
    | succ n => simp [take_line]
  | cons c cs ih =>
    cases n with
    | zero => simp at hn
    | succ n =>
      have hc : c ≠ '\n' := fun hc => h (by simp [hc])
      have hcs : '\n' ∉ cs := fun hcs => h (List.mem_cons_of_mem _ hcs)
      simp only [List.cons_append, take_line, if_neg hc]
      simp only [List.append_eq, ih n hcs (by simpa using hn)]

theorem fgets_of_line (size : Nat) (l rest : List Char) (h : '\n' ∉ l) (hn : l.length + 1 < size) :
    fgets size (l ++ '\n' :: rest) = some (l ++ ['\n'], rest) := by
  have ht := take_line_of_line (size - 1) l rest h (by omega)
  unfold fgets
  rw [if_neg (by simp), ht]
  simp

theorem cstr_subset (buf : List Char) (c : Char) (h : c ∈ cstr buf) : c ∈ buf :=
  (List.takeWhile_sublist _).subset h

theorem loop_body_next_newline (env : Env) (length : Nat) (undo : Bool) (buf : List Char)
    (ps ps1 : List PATCH) (max max1 : Nat)
    (h : loop_body env length undo buf ps max = .next ps1 max1) : '\n' ∈ buf := by
  apply cstr_subset
  by_contra hne
  have : scan_line buf = .malformed := by simp [scan_line, hne]
  simp [loop_body, this] at h

theorem fgets_shorter (env : Env) (length : Nat) (undo : Bool) (f buf rest : List Char)
    (ps ps1 : List PATCH) (max max1 : Nat)
    (hf : fgets env.BUFSIZ f = some (buf, rest))
    (h : loop_body env length undo buf ps max = .next ps1 max1) : rest.length < f.length := by
  have hnl := loop_body_next_newline env length undo buf ps ps1 max max1 h
  unfold fgets at hf
  split at hf
  · simp at hf
  · simp only [Option.some.injEq, Prod.mk.injEq] at hf
    obtain ⟨h1, h2⟩ := hf
    have hlen := take_line_length_le (env.BUFSIZ - 1) f
    have hpos : 0 < buf.length := List.length_pos_of_mem hnl
    rw [← h2, List.length_drop, h1]
    rw [h1] at hlen
    omega

theorem parse_loop_fuel (env : Env) (length : Nat) (undo : Bool) (n1 n2 : Nat) (f : List Char)
    (ps : List PATCH) (max : Nat) (h1 : f.length < n1) (h2 : f.length < n2) :
    parse_loop env length undo n1 f ps max = parse_loop env length undo n2 f ps max := by
  induction n1 generalizing n2 f ps max with
  | zero => omega
  | succ n1 ih =>
    cases n2 with
    | zero => omega
    | succ n2 =>
      simp only [parse_loop]
      cases hf : fgets env.BUFSIZ f with
      | none => rfl
      | some br =>
        obtain ⟨buf, rest⟩ := br
        simp only
        cases hb : loop_body env length undo buf ps max with
        | leave r => rfl
        | next ps1 max1 =>
          simp only
          have := fgets_shorter env length undo f buf rest ps ps1 max max1 hf hb
          exact ih n2 rest ps1 max1 (by omega) (by omega)

theorem parse_from_nil (env : Env) (length : Nat) (undo : Bool) (ps : List PATCH) (max : Nat) :
    parse_from env length undo [] ps max = some (.ok ps) := by
  simp [parse_from, parse_loop, fgets]

theorem parse_from_leave (env : Env) (length : Nat) (undo : Bool) (f buf rest : List Char)
    (ps : List PATCH) (max : Nat) (r : Parsed)
    (hf : fgets env.BUFSIZ f = some (buf, rest))
    (hb : loop_body env length undo buf ps max = .leave r) :
    parse_from env length undo f ps max = some r := by
  simp [parse_from, parse_loop, hf, hb]

theorem parse_from_next (env : Env) (length : Nat) (undo : Bool) (f buf rest : List Char)
    (ps ps1 : List PATCH) (max max1 : Nat)
    (hf : fgets env.BUFSIZ f = some (buf, rest))
    (hb : loop_body env length undo buf ps max = .next ps1 max1) :
    parse_from env length undo f ps max = parse_from env length undo rest ps1 max1 := by
  have := fgets_shorter env length undo f buf rest ps ps1 max max1 hf hb
  simp only [parse_from, parse_loop, hf, hb]
  exact parse_loop_fuel env length undo f.length (rest.length + 1) rest ps1 max1
    (by omega) (by omega)

theorem parse_pass_eq (env : Env) (length : Nat) (undo : Bool) (f : List Char) :
    parse_pass env length undo f = parse_from env length undo f [] 0 :=
  rfl

/-- The parse pass always has a result: the bound on the iterations is never met. -/
theorem parse_from_total (env : Env) (length : Nat) (undo : Bool) (f : List Char)
    (ps : List PATCH) (max : Nat) : ∃ r, parse_from env length undo f ps max = some r := by
  obtain ⟨n, hn⟩ : ∃ n, f.length = n := ⟨_, rfl⟩
  induction n using Nat.strong_induction_on generalizing f ps max with
  | _ n ih =>
    cases hf : fgets env.BUFSIZ f with
    | none =>
      have : f = [] := by
        unfold fgets at hf
        split at hf
        · assumption
        · simp at hf
      subst this
      exact ⟨_, parse_from_nil env length undo ps max⟩
    | some br =>
      obtain ⟨buf, rest⟩ := br
      cases hb : loop_body env length undo buf ps max with
      | leave r => exact ⟨r, parse_from_leave env length undo f buf rest ps max r hf hb⟩
      | next ps1 max1 =>
        rw [parse_from_next env length undo f buf rest ps ps1 max max1 hf hb]
        have := fgets_shorter env length undo f buf rest ps ps1 max max1 hf hb
        exact ih rest.length (by omega) rest ps1 max1 rfl


theorem fgets_some (size : Nat) (f : List Char) (h : f ≠ []) :
    fgets size f = some (take_line (size - 1) f, f.drop (take_line (size - 1) f).length) := by
  simp [fgets, h]

theorem fgets_append (size : Nat) (pre X : List Char) (h : '\n' ∈ pre) :
    fgets size (pre ++ X) =
      some (take_line (size - 1) pre, pre.drop (take_line (size - 1) pre).length ++ X) := by
  have hne : pre ++ X ≠ [] := by
    intro h0
    rw [List.append_eq_nil] at h0
    rw [h0.1] at h
    simp at h
  rw [fgets_some size _ hne, take_line_append _ _ _ h,
    List.drop_append_of_le_length (take_line_length_le _ _)]

theorem loop_body_leave_ne_ok (env : Env) (length : Nat) (undo : Bool) (buf : List Char)
    (ps : List PATCH) (max : Nat) (r : Parsed)
    (h : loop_body env length undo buf ps max = .leave r) : ∀ ops, r ≠ .ok ops := by
  intro ops hr
  subst hr
  unfold loop_body at h
  cases hs : scan_line buf with
  | malformed => simp [hs] at h
  | blank => simp [hs] at h
  | op off ov nv =>
    simp only [hs] at h
    by_cases h1 : off > length
    · simp [h1] at h
    · simp only [h1, if_false] at h
      generalize (if ps.length ≥ max then ((if max = 0 then 8 else max) * 2) % 2 ^ 32
        else max) = max1 at h
      by_cases h2 : ps.length ≥ max ∧ env.realloc_ok (max1 * sizeof_PATCH) = false
      · rw [if_pos h2] at h; simp at h
      · rw [if_neg h2] at h
        by_cases h3 : ps.length ≥ max1
        · rw [if_pos h3] at h; simp at h
        · rw [if_neg h3] at h; simp at h

theorem mem_of_getLast (l : List Char) (c : Char) (h : l.getLast? = some c) : c ∈ l :=
  List.mem_of_getLast?_eq_some h

theorem last_of_rest (buf rest : List Char) (hb : buf.getLast? = some '\n')
    (hr : rest = [] ∨ rest.getLast? = some '\n') : (buf ++ rest).getLast? = some '\n' := by
  rcases hr with rfl | hr
  · simpa using hb
  · rw [List.getLast?_append, hr]; rfl

theorem rest_boundary (pre : List Char) (n : Nat) (h : pre.getLast? = some '\n') :
    pre.drop n = [] ∨ (pre.drop n).getLast? = some '\n' := by
  by_cases hn : n < pre.length
  · right
    rw [List.getLast?_drop, if_neg (by omega)]
    exact h
  · left
    exact List.drop_eq_nil_of_le (by omega)

/-- A script made of complete lines, followed by more text: the parse loop treats the
lines first and, unless it leaves on one of them, goes on with what follows. -/
theorem parse_from_append (env : Env) (length : Nat) (undo : Bool) (pre : List Char)
    (hpre : pre = [] ∨ pre.getLast? = some '\n') (ps : List PATCH) (max : Nat) :
    (∃ ops max1, parse_from env length undo pre ps max = some (.ok ops) ∧
        ∀ X, parse_from env length undo (pre ++ X) ps max = parse_from env length undo X ops max1) ∨
      ((∀ ops, parse_from env length undo pre ps max ≠ some (.ok ops)) ∧
        ∀ X, parse_from env length undo (pre ++ X) ps max = parse_from env length undo pre ps max) := by
  obtain ⟨n, hn⟩ : ∃ n, pre.length = n := ⟨_, rfl⟩
  induction n using Nat.strong_induction_on generalizing pre ps max with
  | _ n ih =>
    rcases hpre with rfl | hlast
    · exact Or.inl ⟨ps, max, parse_from_nil env length undo ps max, fun X => rfl⟩
    · have hmem : '\n' ∈ pre := mem_of_getLast pre _ hlast
      have hne : pre ≠ [] := List.ne_nil_of_mem hmem
      have hf := fgets_some env.BUFSIZ pre hne
      have hfX := fun X => fgets_append env.BUFSIZ pre X hmem
      cases hb : loop_body env length undo (take_line (env.BUFSIZ - 1) pre) ps max with
      | leave r =>
        right
        have h1 := parse_from_leave env length undo pre _ _ ps max r hf hb
        refine ⟨?_, ?_⟩
        · intro ops hops
          rw [h1] at hops
          exact loop_body_leave_ne_ok env length undo _ ps max r hb ops (Option.some.inj hops)
        · intro X
          rw [h1, parse_from_leave env length undo (pre ++ X) _ _ ps max r (hfX X) hb]
      | next ps1 max1 =>
        have h1 := parse_from_next env length undo pre _ _ ps ps1 max max1 hf hb
        have h2 := fun X => parse_from_next env length undo (pre ++ X) _ _ ps ps1 max max1 (hfX X) hb
        have hshort := fgets_shorter env length undo pre _ _ ps ps1 max max1 hf hb
        have := ih _ (by omega) (pre.drop (take_line (env.BUFSIZ - 1) pre).length)
          (rest_boundary pre _ hlast) ps1 max1 rfl
        rcases this with ⟨ops, max2, h3, h4⟩ | ⟨h3, h4⟩
        · left
          refine ⟨ops, max2, by rw [h1, h3], fun X => by rw [h2 X, h4 X]⟩
        · right
          refine ⟨fun ops => by rw [h1]; exact h3 ops, fun X => by rw [h2 X, h4 X, h1]⟩

/-- A script that parses with success consists of complete lines. -/
theorem parse_ok_boundary (env : Env) (length : Nat) (undo : Bool) (pre : List Char)
    (ps : List PATCH) (max : Nat) (ops : List PATCH)
    (h : parse_from env length undo pre ps max = some (.ok ops)) :
    pre = [] ∨ pre.getLast? = some '\n' := by
  obtain ⟨n, hn⟩ : ∃ n, pre.length = n := ⟨_, rfl⟩
  induction n using Nat.strong_induction_on generalizing pre ps max with
  | _ n ih =>
    by_cases hne : pre = []
    · exact Or.inl hne
    · right
      have hf := fgets_some env.BUFSIZ pre hne
      cases hb : loop_body env length undo (take_line (env.BUFSIZ - 1) pre) ps max with
      | leave r =>
        rw [parse_from_leave env length undo pre _ _ ps max r hf hb] at h
        exact absurd (Option.some.inj h) (loop_body_leave_ne_ok env length undo _ ps max r hb ops)
      | next ps1 max1 =>
        rw [parse_from_next env length undo pre _ _ ps ps1 max max1 hf hb] at h
        have hshort := fgets_shorter env length undo pre _ _ ps ps1 max max1 hf hb
        have hrest := ih _ (by omega) _ ps1 max1 h rfl
        have hnl := loop_body_next_newline env length undo _ ps ps1 max max1 hb
        have := last_of_rest _ _ (take_line_last _ _ hnl) hrest
        rw [take_line_append_drop] at this
        exact this

/-- After a script that parses with success, the parse loop goes on with what follows. -/
theorem parse_from_append_ok (env : Env) (length : Nat) (undo : Bool) (pre : List Char)
    (ps : List PATCH) (max : Nat) (ops : List PATCH)
    (h : parse_from env length undo pre ps max = some (.ok ops)) :
    ∃ max1, ∀ X,
      parse_from env length undo (pre ++ X) ps max = parse_from env length undo X ops max1 := by
  rcases parse_from_append env length undo pre
    (parse_ok_boundary env length undo pre ps max ops h) ps max with ⟨ops1, max1, h1, h2⟩ | ⟨h1, -⟩
  · rw [h] at h1
    obtain rfl : ops = ops1 := by simpa using h1
    exact ⟨max1, h2⟩
  · exact absurd h (h1 ops)


theorem scan_line_malformed (ln : List Char)
    (h : '\n' ∉ ln ∨ ('\n' ∈ cstr ln ∧ strip_line ln ≠ [] ∧ literal_fails (strip_line ln))) :
    scan_line ln = .malformed := by
  rcases h with h | ⟨h1, h2, h3⟩
  · have : '\n' ∉ cstr ln := fun hc => h (cstr_subset ln _ hc)
    simp [scan_line, this]
  · unfold scan_line
    rw [if_neg (by simpa using h1), if_neg h2]
    simp only [literal_fails, Conv.failed] at h3
    by_cases c1 : (strtoull (strip_line ln)).errno = true ∨ ¬ (strtoull (strip_line ln)).moved = true
    · simp only [c1, if_true]
    · rw [if_neg c1]
      by_cases c2 : (strtoull (strtoull (strip_line ln)).endp).errno = true ∨
          ¬ (strtoull (strtoull (strip_line ln)).endp).moved = true
      · simp only [c2, if_true]
      · rw [if_neg c2]
        by_cases c3 : (strtoull (strtoull (strtoull (strip_line ln)).endp).endp).errno = true ∨
            ¬ (strtoull (strtoull (strtoull (strip_line ln)).endp).endp).moved = true
        · simp only [c3, if_true]
        · exfalso
          simp only [Bool.not_eq_true] at c1 c2 c3
          rcases h3 with h3 | h3 | h3
          · exact c1 h3
          · exact c2 h3
          · exact c3 h3

/-- The parse pass leaves with an error on a line on which the loop body leaves, whatever
lines that parse stand before it and whatever follows it. -/
theorem parse_pass_leave (env : Env) (length : Nat) (undo : Bool) (pre ln post : List Char)
    (ops : List PATCH) (r : Parsed)
    (hpre : parse_pass env length undo pre = some (.ok ops))
    (hln : fgets env.BUFSIZ (ln ++ post) = some (ln, post))
    (hbody : ∀ max, loop_body env length undo ln ops max = .leave r) :
    parse_pass env length undo (pre ++ ln ++ post) = some r := by
  obtain ⟨max1, h⟩ := parse_from_append_ok env length undo pre [] 0 ops hpre
  rw [parse_pass_eq, List.append_assoc, h (ln ++ post)]
  exact parse_from_leave env length undo (ln ++ post) ln post ops max1 r hln (hbody max1)

theorem apply_patch_parse_error {σ : Type} (env : Env) (io : FHANDLE σ) (fd : σ) (f : List Char)
    (force undo : Bool) (e : ParseError) (hlen : 0 ≤ io.length fd)
    (h : parse_pass env (io.length fd).toNat undo f = some (.error e)) :
    apply_patch env io fd (some f) force undo = some ⟨-1, fd, [.parse e]⟩ := by
  simp only [apply_patch, if_neg (not_lt.mpr hlen), h]


/-! ## Comments and empty lines -/

theorem cstr_of_no_nul (l : List Char) (h : '\x00' ∉ l) : cstr l = l := by
  unfold cstr
  rw [List.takeWhile_eq_self_iff]
  intro c hc
  simp only [ne_eq, decide_eq_true_eq]
  intro h0
  exact h (h0 ▸ hc)

theorem takeWhile_line (l : List Char) (h : '\n' ∉ l) :
    (l ++ ['\n']).takeWhile (fun c => c ≠ '\n') = l := by
  induction l with
  | nil => simp
  | cons c cs ih =>
    have hc : c ≠ '\n' := fun hc => h (by simp [hc])
    have hcs : '\n' ∉ cs := fun hcs => h (List.mem_cons_of_mem _ hcs)
    simpa [List.takeWhile_cons, hc] using ih hcs

/-- The text of a line as the conversions see it, for a line that fits the buffer. -/
theorem strip_line_of_line (l : List Char) (hnl : '\n' ∉ l) (hnul : '\x00' ∉ l) :
    strip_line (l ++ ['\n']) = uncomment (if l.getLast? = some '\r' then l.dropLast else l) := by
  have h0 : '\x00' ∉ l ++ ['\n'] := by
    simp only [List.mem_append, List.mem_singleton, not_or]
    exact ⟨hnul, by decide⟩
  simp only [strip_line, cstr_of_no_nul _ h0, takeWhile_line l hnl, uncomment]

theorem newline_in_cstr (l : List Char) (hnul : '\x00' ∉ l) : '\n' ∈ cstr (l ++ ['\n']) := by
  have h0 : '\x00' ∉ l ++ ['\n'] := by
    simp only [List.mem_append, List.mem_singleton, not_or]
    exact ⟨hnul, by decide⟩
  rw [cstr_of_no_nul _ h0]
  simp

theorem scan_line_congr (b1 b2 : List Char) (h1 : '\n' ∈ cstr b1) (h2 : '\n' ∈ cstr b2)
    (h : strip_line b1 = strip_line b2) : scan_line b1 = scan_line b2 := by
  simp only [scan_line, h, h1, h2, not_true_eq_false, if_false]

theorem uncomment_idem (l : List Char) : uncomment (uncomment l) = uncomment l := by
  unfold uncomment
  rw [List.takeWhile_takeWhile]
  simp

theorem uncomment_split (l : List Char) (h : uncomment l ≠ l) :
    ∃ c t, l = uncomment l ++ c :: t ∧ (c = '#' ∨ c = ';') := by
  induction l with
  | nil => simp [uncomment] at h
  | cons a as ih =>
    by_cases ha : a ≠ '#' ∧ a ≠ ';'
    · have h1 : uncomment (a :: as) = a :: uncomment as := by
        simp [uncomment, List.takeWhile_cons, ha]
      rw [h1] at h ⊢
      have h2 : uncomment as ≠ as := fun h2 => h (by rw [h2])
      obtain ⟨c, t, hct, hc⟩ := ih h2
      exact ⟨c, t, by rw [List.cons_append, ← hct], hc⟩
    · have h1 : uncomment (a :: as) = [] := by
        simp only [uncomment, List.takeWhile_cons]
        rw [if_neg (by simpa using ha)]
      rw [h1]
      refine ⟨a, as, rfl, ?_⟩
      by_contra hne
      push_neg at hne
      exact ha hne

theorem uncomment_append (u t : List Char) (c : Char) (hu : uncomment u = u)
    (hc : c = '#' ∨ c = ';') : uncomment (u ++ c :: t) = u := by
  unfold uncomment at hu ⊢
  rw [List.takeWhile_eq_self_iff] at hu
  rw [List.takeWhile_append_of_pos hu, List.takeWhile_cons, if_neg, List.append_nil]
  rcases hc with rfl | rfl <;> simp

/-- Cutting the comment before or after the carriage return is taken off gives the same
text, unless a carriage return stands directly before the comment. -/
theorem uncomment_chomp (l : List Char)
    (h : uncomment l ≠ l → (uncomment l).getLast? ≠ some '\r') :
    uncomment (if (uncomment l).getLast? = some '\r' then (uncomment l).dropLast
        else uncomment l) =
      uncomment (if l.getLast? = some '\r' then l.dropLast else l) := by
  by_cases hl : uncomment l = l
  · rw [hl]
  · rw [if_neg (h hl), uncomment_idem]
    obtain ⟨c, t, hct, hc⟩ := uncomment_split l hl
    by_cases hr : l.getLast? = some '\r'
    · rw [if_pos hr]
      have ht : t ≠ [] := by
        intro ht
        rw [hct, ht, List.getLast?_append] at hr
        simp at hr
        rcases hc with rfl | rfl <;> simp at hr
      have hd : l.dropLast = uncomment l ++ c :: t.dropLast := by
        conv_lhs => rw [hct]
        rw [List.dropLast_append_of_ne_nil _ (by simp), List.dropLast_cons_of_ne_nil ht]
      rw [hd, uncomment_append _ _ _ (uncomment_idem l) hc]
    · rw [if_neg hr]

theorem uncomment_length_le (l : List Char) : (uncomment l).length ≤ l.length :=
  (List.takeWhile_sublist _).length_le

theorem uncomment_not_mem (l : List Char) (c : Char) (h : c ∉ l) : c ∉ uncomment l :=
  fun hc => h ((List.takeWhile_sublist _).subset hc)


theorem loop_body_congr (env : Env) (length : Nat) (undo : Bool) (b1 b2 : List Char)
    (ps : List PATCH) (max : Nat) (h : scan_line b1 = scan_line b2) :
    loop_body env length undo b1 ps max = loop_body env length undo b2 ps max := by
  unfold loop_body
  rw [h]

theorem loop_body_blank (env : Env) (length : Nat) (undo : Bool) (buf : List Char)
    (ps : List PATCH) (max : Nat) (h1 : '\n' ∈ cstr buf) (h2 : strip_line buf = []) :
    loop_body env length undo buf ps max = .next ps max := by
  simp [loop_body, scan_line, h1, h2]

/-- The parse loop gives the same result on a script and on the script without its comments
and empty lines, when the lines fit the buffer, hold no NUL, and have no carriage return
directly before a comment. -/
theorem parse_from_strip (env : Env) (length : Nat) (undo : Bool) (ls : List (List Char))
    (h : ∀ l ∈ ls, '\n' ∉ l ∧ '\x00' ∉ l ∧ l.length + 1 < env.BUFSIZ ∧
      (uncomment l ≠ l → (uncomment l).getLast? ≠ some '\r'))
    (ps : List PATCH) (max : Nat) :
    parse_from env length undo (unlines (strip_comments ls)) ps max =
      parse_from env length undo (unlines ls) ps max := by
  induction ls generalizing ps max with
  | nil => rfl
  | cons l t ih =>
    obtain ⟨hnl, hnul, hfit, hcr⟩ := h l (List.mem_cons_self _ _)
    have iht := ih (fun a ha => h a (List.mem_cons_of_mem _ ha))
    have hf : fgets env.BUFSIZ (unlines (l :: t)) = some (l ++ ['\n'], unlines t) :=
      fgets_of_line env.BUFSIZ l (unlines t) hnl hfit
    have hstrip : strip_line (l ++ ['\n']) = strip_line (uncomment l ++ ['\n']) := by
      rw [strip_line_of_line l hnl hnul,
        strip_line_of_line _ (uncomment_not_mem l _ hnl) (uncomment_not_mem l _ hnul)]
      exact (uncomment_chomp l hcr).symm
    by_cases hu : uncomment l = []
    · have hs : strip_comments (l :: t) = strip_comments t := by
        simp [strip_comments, hu]
      have hb : loop_body env length undo (l ++ ['\n']) ps max = .next ps max := by
        apply loop_body_blank _ _ _ _ _ _ (newline_in_cstr l hnul)
        rw [hstrip, hu]
        rfl
      rw [hs, parse_from_next env length undo _ _ _ ps ps max max hf hb]
      exact iht ps max
    · have hs : strip_comments (l :: t) = uncomment l :: strip_comments t := by
        simp [strip_comments, hu]
      have hf2 : fgets env.BUFSIZ (unlines (uncomment l :: strip_comments t)) =
          some (uncomment l ++ ['\n'], unlines (strip_comments t)) :=
        fgets_of_line env.BUFSIZ _ _ (uncomment_not_mem l _ hnl)
          (by have := uncomment_length_le l; omega)
      have hb : loop_body env length undo (uncomment l ++ ['\n']) ps max =
          loop_body env length undo (l ++ ['\n']) ps max := by
        apply loop_body_congr
        exact scan_line_congr _ _ (newline_in_cstr _ (uncomment_not_mem l _ hnul))
          (newline_in_cstr l hnul) hstrip.symm
      rw [hs]
      cases hl : loop_body env length undo (l ++ ['\n']) ps max with
      | leave r =>
        rw [parse_from_leave env length undo _ _ _ ps max r hf hl,
          parse_from_leave env length undo _ _ _ ps max r hf2 (hb.trans hl)]
      | next ps1 max1 =>
        rw [parse_from_next env length undo _ _ _ ps ps1 max max1 hf hl,
          parse_from_next env length undo _ _ _ ps ps1 max max1 hf2 (hb.trans hl)]
        exact iht ps1 max1


theorem take_line_long (n : Nat) (l r : List Char) (h : '\n' ∉ l) (hn : n ≤ l.length) :
    take_line n (l ++ r) = l.take n := by
  induction n generalizing l with
  | zero => simp [take_line]
  | succ n ih =>
    cases l with
    | nil => simp at hn
    | cons c cs =>
      have hc : c ≠ '\n' := fun hc => h (by simp [hc])
      have hcs : '\n' ∉ cs := fun hcs => h (List.mem_cons_of_mem _ hcs)
      simp only [List.cons_append, take_line, if_neg hc, List.take_succ_cons]
      simp only [List.append_eq, ih cs hcs (by simpa using hn)]

theorem cstr_of_nul (l r : List Char) (h : '\x00' ∈ l) : cstr (l ++ r) = cstr l := by
  induction l with
  | nil => simp at h
  | cons c cs ih =>
    by_cases hc : c = '\x00'
    · simp [cstr, List.takeWhile_cons, hc]
    · have hcs : '\x00' ∈ cs := by
        rcases List.mem_cons.mp h with h | h
        · exact absurd h.symm hc
        · exact h
      have := ih hcs
      simp only [cstr] at this ⊢
      simpa [List.takeWhile_cons, hc] using this

theorem strtoull_blank (w : List Char) (h : ∀ ch ∈ w, ch = ' ' ∨ ch = '\t') :
    (strtoull w).failed := by
  have hd : w.dropWhile isspace = [] := by
    rw [List.dropWhile_eq_nil_iff]
    intro ch hch
    rcases h ch hch with rfl | rfl <;> rfl
  right
  simp [strtoull, hd, select_base]

theorem uncomment_blank_comment (w cmt : List Char) (hw : ∀ ch ∈ w, ch = ' ' ∨ ch = '\t')
    (hcmt : cmt = [] ∨ cmt.head? = some '#' ∨ cmt.head? = some ';') :
    uncomment (w ++ cmt) = w := by
  have hwu : uncomment w = w := by
    unfold uncomment
    rw [List.takeWhile_eq_self_iff]
    intro ch hch
    rcases hw ch hch with rfl | rfl <;> decide
  cases cmt with
  | nil => simpa using hwu
  | cons c t =>
    apply uncomment_append w t c hwu
    simpa using hcmt

theorem chomp_blank_comment (w cmt : List Char)
    (hw : ∀ ch ∈ w, ch = ' ' ∨ ch = '\t')
    (hcmt : cmt = [] ∨ cmt.head? = some '#' ∨ cmt.head? = some ';') :
    uncomment (if (w ++ cmt).getLast? = some '\r' then (w ++ cmt).dropLast else w ++ cmt) = w := by
  by_cases hr : (w ++ cmt).getLast? = some '\r'
  · rw [if_pos hr]
    cases cmt with
    | nil =>
      exfalso
      rw [List.append_nil] at hr
      rcases hw _ (List.mem_of_getLast?_eq_some hr) with h | h <;> simp at h
    | cons c t =>
      have hc : c = '#' ∨ c = ';' := by simpa using hcmt
      have ht : t ≠ [] := by
        intro ht
        rw [ht, List.getLast?_append] at hr
        simp at hr
        rcases hc with rfl | rfl <;> simp at hr
      rw [List.dropLast_append_of_ne_nil _ (by simp), List.dropLast_cons_of_ne_nil ht]
      exact uncomment_blank_comment w (c :: t.dropLast) hw (by simpa using hc)
  · rw [if_neg hr]
    exact uncomment_blank_comment w cmt hw hcmt

/-- A buffer that starts with a line made of blanks, alone or followed by a comment, is a
malformed line, whatever the size of the buffer. -/
theorem scan_line_blanks (n : Nat) (w cmt post : List Char) (hne : w ≠ [])
    (hw : ∀ ch ∈ w, ch = ' ' ∨ ch = '\t') (hnl : '\n' ∉ cmt)
    (hcmt : cmt = [] ∨ cmt.head? = some '#' ∨ cmt.head? = some ';') :
    scan_line (take_line n (w ++ cmt ++ '\n' :: post)) = .malformed := by
  have hl : '\n' ∉ w ++ cmt := by
    simp only [List.mem_append, not_or]
    refine ⟨fun h => ?_, hnl⟩
    rcases hw _ h with h | h <;> simp at h
  by_cases hn : (w ++ cmt).length < n
  · rw [take_line_of_line n _ post hl hn]
    by_cases hnul : '\x00' ∈ w ++ cmt
    · have : '\n' ∉ cstr (w ++ cmt ++ ['\n']) := by
        rw [cstr_of_nul _ _ hnul]
        exact fun h => hl (cstr_subset _ _ h)
      unfold scan_line
      rw [if_pos this]
    · apply scan_line_malformed
      right
      refine ⟨newline_in_cstr _ hnul, ?_, ?_⟩
      · rw [strip_line_of_line _ hl hnul, chomp_blank_comment w cmt hw hcmt]
        exact hne
      · rw [strip_line_of_line _ hl hnul, chomp_blank_comment w cmt hw hcmt]
        exact Or.inl (strtoull_blank w hw)
  · apply scan_line_malformed
    left
    rw [take_line_long n _ _ hl (by omega)]
    exact fun h => hl (List.mem_of_mem_take h)



/-! ## The copy loop of the stream materializer -/

theorem yield_nonneg (reads : List Int) : 0 ≤ yield reads := by
  induction reads with
  | nil => simp [yield]
  | cons n reads ih =>
    simp only [yield]
    split <;> omega

/-- When the source yields no more bytes than the counter still asks for, the copy loop is
left with the counter at 0 only after the destination accepted exactly that many bytes. -/
theorem copy_loop_exact (reads : List Int) (fd : Sink) (total : Nat) (sent : Int)
    (hy : yield reads ≤ total) (hlt : total < 2 ^ 64)
    (h0 : (copy_loop reads fd total sent).total = 0) :
    (copy_loop reads fd total sent).sent = sent + total := by
  induction reads generalizing fd total sent with
  | nil =>
    simp only [copy_loop] at h0 ⊢
    simp [h0]
  | cons n reads ih =>
    simp only [copy_loop] at h0 ⊢
    by_cases hn : n ≤ 0
    · rw [if_pos hn] at h0 ⊢
      simp only at h0 ⊢
      simp [h0]
    · rw [if_neg hn] at h0 ⊢
      have hy2 : n + yield reads ≤ total := by
        simpa only [yield, if_neg hn] using hy
      have hyr := yield_nonneg reads
      by_cases hw : (fd.write n).2 ≠ n
      · rw [if_pos hw] at h0
        simp only at h0
        omega
      · rw [if_neg hw] at h0 ⊢
        rw [not_not] at hw
        rw [hw] at h0 ⊢
        have hmod : (((total : Int) - n) % 2 ^ 64).toNat = total - n.toNat := by
          rw [Int.emod_eq_of_lt (by omega) (by omega)]
          omega
        rw [hmod] at h0 ⊢
        have hcast : ((total - n.toNat : Nat) : Int) = (total : Int) - n := by omega
        rw [ih (fd.write n).1 (total - n.toNat) (sent + n) (by omega) (by omega) h0, hcast]
        omega


/-! ## Extent of the validation loop, and writes that no later write touches -/

theorem probes_append (a b : List PATCH) : probes (a ++ b) = probes a ++ probes b := by
  induction a with
  | nil => rfl
  | cons p ps ih => simp [probes, ih]

/-- The validation loop on a resource in memory, for operations `pre` that find their old
or new value, followed by nothing or by operations `rest` of which the first finds
neither: the loop visits `pre` and the first of `rest`, resolves `pre`, and leaves `rest`
as the parse pass stored it. -/
theorem validate_mem_upto (force : Bool) (pre rest : List PATCH) (m : MemFile)
    (hpre : ∀ q ∈ pre, m.data[q.off]? = some q.ov ∨ m.data[q.off]? = some q.nv)
    (hrest : ∀ p ∈ rest.head?, ∃ b, m.data[p.off]? = some b ∧ b ≠ p.ov ∧ b ≠ p.nv) :
    (validate_loop MemFile.io force m (pre ++ rest)).patches = pre.map (resolve m.data) ++ rest ∧
      (validate_loop MemFile.io force m (pre ++ rest)).fd.calls =
        m.calls ++ probes (pre ++ rest.take 1) ∧
      (validate_loop MemFile.io force m (pre ++ rest)).fd.data = m.data ∧
      (validate_loop MemFile.io force m (pre ++ rest)).rv =
        if rest = [] ∨ force = true then 0 else -1 := by
  induction pre generalizing m with
  | nil =>
    cases rest with
    | nil => simp [validate_loop, probes]
    | cons p post =>
      obtain ⟨b, hb, h1, h2⟩ := hrest p (by simp)
      rw [List.nil_append, validate_mem_clash force p post m b hb ⟨h1, h2⟩]
      refine ⟨rfl, ?_, rfl, ?_⟩
      · simp [probes]
      · cases force <;> simp
  | cons q pre ih =>
    have hq := hpre q (List.mem_cons_self _ _)
    cases hb : m.data[q.off]? with
    | none => simp [hb] at hq
    | some b =>
      have hnot : ¬ (b ≠ q.ov ∧ b ≠ q.nv) := by
        rw [hb] at hq
        rcases hq with hq | hq <;> simp at hq <;> simp [hq]
      rw [List.cons_append, validate_mem_next force q (pre ++ rest) m b hb hnot]
      obtain ⟨h1, h2, h3, h4⟩ :=
        ih { m with pos := q.off + 1, calls := m.calls ++ [.lseek q.off, .read] }
          (fun a ha => hpre a (List.mem_cons_of_mem _ ha)) hrest
      refine ⟨?_, ?_, h3, h4⟩
      · show _ :: _ = _
        rw [h1]
        simp [resolve, hb]
      · show (validate_loop MemFile.io force _ (pre ++ rest)).fd.calls = _
        rw [h2]
        simp [probes]

/-- The write loop over a first part that it gets through goes on with the rest from the
handle state that the first part left. -/
theorem write_loop_append {σ : Type} (io : FHANDLE σ) (fd : σ) (pre rest : List PATCH)
    (h : (write_loop io fd pre).rv = 0) :
    (write_loop io fd (pre ++ rest)).fd = (write_loop io (write_loop io fd pre).fd rest).fd ∧
      (write_loop io fd (pre ++ rest)).rv = (write_loop io (write_loop io fd pre).fd rest).rv ∧
      (write_loop io fd (pre ++ rest)).err =
        (write_loop io (write_loop io fd pre).fd rest).err := by
  induction pre generalizing fd with
  | nil => simp [write_loop]
  | cons q pre ih =>
    by_cases hs : q.skip = true
    · simp only [write_loop, hs, if_true, List.cons_append] at h ⊢
      exact ih fd h
    · by_cases h1 : (io.lseek fd q.off).2 ≠ q.off
      · simp [write_loop, hs, h1] at h
      · by_cases h2 : (io.write1 (io.lseek fd q.off).1 q.nv).2 ≠ 1
        · simp [write_loop, hs, h1, h2] at h
        · simp only [write_loop, hs, h1, h2, if_false, List.cons_append] at h ⊢
          exact ih _ h

/-- The write loop at an operation to be written whose seek lands elsewhere or whose write
does not report one byte: it leaves with -1 after the failing call. -/
theorem write_loop_fail {σ : Type} (io : FHANDLE σ) (fd : σ) (p : PATCH) (post : List PATCH)
    (hs : p.skip = false)
    (hfail : (io.lseek fd p.off).2 ≠ p.off ∨ (io.write1 (io.lseek fd p.off).1 p.nv).2 ≠ 1) :
    (write_loop io fd (p :: post)).rv = -1 ∧
      (write_loop io fd (p :: post)).fd =
        (if (io.lseek fd p.off).2 ≠ p.off then (io.lseek fd p.off).1
          else (io.write1 (io.lseek fd p.off).1 p.nv).1) ∧
      (write_loop io fd (p :: post)).err =
        [if (io.lseek fd p.off).2 ≠ p.off then .cannot_seek p.off
          else .cannot_patch (io.lseek fd p.off).2] := by
  by_cases h1 : (io.lseek fd p.off).2 ≠ p.off
  · simp [write_loop, hs, h1]
  · have h2 : (io.write1 (io.lseek fd p.off).1 p.nv).2 ≠ 1 := by
      rcases hfail with h | h
      · exact absurd h h1
      · exact h
    simp [write_loop, hs, h1, h2]



/-! ## Conversions of numeric literals -/

theorem write_loop_skip {σ : Type} (io : FHANDLE σ) (fd : σ) (p : PATCH) (ps : List PATCH)
    (hs : p.skip = true) :
    (write_loop io fd (p :: ps)).fd = (write_loop io fd ps).fd ∧
      (write_loop io fd (p :: ps)).rv = (write_loop io fd ps).rv := by
  simp [write_loop, hs]

theorem write_loop_seek_failed {σ : Type} (io : FHANDLE σ) (fd : σ) (p : PATCH)
    (ps : List PATCH) (hs : p.skip = false) (h1 : (io.lseek fd p.off).2 ≠ p.off) :
    (write_loop io fd (p :: ps)).fd = (io.lseek fd p.off).1 ∧
      (write_loop io fd (p :: ps)).rv = -1 := by
  simp [write_loop, hs, h1]

theorem write_loop_write_failed {σ : Type} (io : FHANDLE σ) (fd : σ) (p : PATCH)
    (ps : List PATCH) (hs : p.skip = false) (h1 : (io.lseek fd p.off).2 = p.off)
    (h2 : (io.write1 (io.lseek fd p.off).1 p.nv).2 ≠ 1) :
    (write_loop io fd (p :: ps)).fd = (io.write1 (io.lseek fd p.off).1 p.nv).1 ∧
      (write_loop io fd (p :: ps)).rv = -1 := by
  simp [write_loop, hs, h1, h2]

theorem write_loop_written {σ : Type} (io : FHANDLE σ) (fd : σ) (p : PATCH)
    (ps : List PATCH) (hs : p.skip = false) (h1 : (io.lseek fd p.off).2 = p.off)
    (h2 : (io.write1 (io.lseek fd p.off).1 p.nv).2 = 1) :
    (write_loop io fd (p :: ps)).fd =
        (write_loop io (io.write1 (io.lseek fd p.off).1 p.nv).1 ps).fd ∧
      (write_loop io fd (p :: ps)).rv =
        (write_loop io (io.write1 (io.lseek fd p.off).1 p.nv).1 ps).rv := by
  simp [write_loop, hs, h1, h2]

/-- On a byte store, the validation loop leaves the content alone. -/
theorem validate_loop_content {σ : Type} (io : FHANDLE σ) (bs : ByteStore io) (force : Bool)
    (ps : List PATCH) (fd : σ) :
    bs.content (validate_loop io force fd ps).fd = bs.content fd := by
  induction ps generalizing fd with
  | nil => rfl
  | cons p ps ih =>
    have hc : bs.content (io.read1 (io.lseek fd p.off).1).1 = bs.content fd := by
      rw [bs.read_content, bs.lseek_content]
    by_cases h1 : (io.lseek fd p.off).2 = p.off
    · by_cases h2 : (io.read1 (io.lseek fd p.off).1).2.1 = 1
      · by_cases h3 : (io.read1 (io.lseek fd p.off).1).2.2 ≠ p.ov ∧
            (io.read1 (io.lseek fd p.off).1).2.2 ≠ p.nv
        · have : (validate_loop io force fd (p :: ps)).fd = (io.read1 (io.lseek fd p.off).1).1 := by
            simp [validate_loop, h1, h2, h3]
          rw [this, hc]
        · have : (validate_loop io force fd (p :: ps)).fd =
              (validate_loop io force (io.read1 (io.lseek fd p.off).1).1 ps).fd := by
            simp only [validate_loop, h1, h2, ne_eq, not_true_eq_false, if_false]
            rw [if_neg h3]
          rw [this, ih, hc]
      · have : (validate_loop io force fd (p :: ps)).fd = (io.read1 (io.lseek fd p.off).1).1 := by
          simp [validate_loop, h1, h2]
        rw [this, hc]
    · have : (validate_loop io force fd (p :: ps)).fd = (io.lseek fd p.off).1 := by
        simp [validate_loop, h1]
      rw [this, bs.lseek_content]

/-- On a byte store, the write loop leaves alone every offset that is not the offset of
one of its operations to be written, however it ends. -/
theorem write_loop_untouched {σ : Type} (io : FHANDLE σ) (bs : ByteStore io)
    (ps : List PATCH) (fd : σ) (o : Nat) (h : ∀ x ∈ ps, x.skip = false → x.off ≠ o) :
    (bs.content (write_loop io fd ps).fd)[o]? = (bs.content fd)[o]? := by
  induction ps generalizing fd with
  | nil => rfl
  | cons p ps ih =>
    have ih2 := fun fd2 => ih fd2 (fun x hx => h x (List.mem_cons_of_mem _ hx))
    by_cases hs : p.skip = true
    · rw [(write_loop_skip io fd p ps hs).1]
      exact ih2 fd
    · have hs : p.skip = false := by simpa using hs
      have hpo : p.off ≠ o := h p (List.mem_cons_self _ _) hs
      by_cases h1 : (io.lseek fd p.off).2 = p.off
      · have hpos : bs.pos (io.lseek fd p.off).1 = p.off := bs.lseek_pos fd p.off h1
        have hw : (bs.content (io.write1 (io.lseek fd p.off).1 p.nv).1)[o]? =
            (bs.content fd)[o]? := by
          rw [bs.write_other _ _ o (by rw [hpos]; exact Ne.symm hpo), bs.lseek_content]
        by_cases h2 : (io.write1 (io.lseek fd p.off).1 p.nv).2 = 1
        · rw [(write_loop_written io fd p ps hs h1 h2).1, ih2, hw]
        · rw [(write_loop_write_failed io fd p ps hs h1 h2).1, hw]
      · rw [(write_loop_seek_failed io fd p ps hs h1).1, bs.lseek_content]

theorem write_loop_head_ok {σ : Type} (io : FHANDLE σ) (fd : σ) (a rest : List PATCH)
    (h : (write_loop io fd (a ++ rest)).rv = 0) : (write_loop io fd a).rv = 0 := by
  induction a generalizing fd with
  | nil => rfl
  | cons q a ih =>
    rw [List.cons_append] at h
    by_cases hs : q.skip = true
    · rw [(write_loop_skip io fd q _ hs).2] at h ⊢
      exact ih fd h
    · have hs : q.skip = false := by simpa using hs
      by_cases h1 : (io.lseek fd q.off).2 = q.off
      · by_cases h2 : (io.write1 (io.lseek fd q.off).1 q.nv).2 = 1
        · rw [(write_loop_written io fd q _ hs h1 h2).2] at h ⊢
          exact ih _ h
        · rw [(write_loop_write_failed io fd q _ hs h1 h2).2] at h
          exact absurd h (by decide)
      · rw [(write_loop_seek_failed io fd q _ hs h1).2] at h
        exact absurd h (by decide)

/-- On a byte store, after a write loop that got through its operations, the offset of an
operation written holds its new value unless a later operation wrote there. -/
theorem write_loop_last {σ : Type} (io : FHANDLE σ) (bs : ByteStore io) (fd : σ)
    (a : List PATCH) (q : PATCH) (b : List PATCH)
    (h : (write_loop io fd (a ++ q :: b)).rv = 0) (hs : q.skip = false)
    (hb : ∀ x ∈ b, x.skip = false → x.off ≠ q.off) :
    (bs.content (write_loop io fd (a ++ q :: b)).fd)[q.off]? = some q.nv := by
  have ha := write_loop_head_ok io fd a (q :: b) h
  obtain ⟨h1, h2, -⟩ := write_loop_append io fd a (q :: b) ha
  rw [h2] at h
  rw [h1]
  generalize (write_loop io fd a).fd = fd1 at h ⊢
  by_cases hk : (io.lseek fd1 q.off).2 = q.off
  · by_cases hw : (io.write1 (io.lseek fd1 q.off).1 q.nv).2 = 1
    · rw [(write_loop_written io fd1 q b hs hk hw).1,
        write_loop_untouched io bs b _ q.off hb]
      have := bs.write_at (io.lseek fd1 q.off).1 q.nv hw
      rw [bs.lseek_pos fd1 q.off hk] at this
      exact this
    · rw [(write_loop_write_failed io fd1 q b hs hk hw).2] at h
      exact absurd h (by decide)
  · rw [(write_loop_seek_failed io fd1 q b hs hk).2] at h
    exact absurd h (by decide)


/-! ## Claims about the patch engine -/

/-- C1, the case in which it fails. Both operations of the script expect the byte that the
resource holds at offset 0; the run succeeds and leaves the new value of the second one, so
the byte at the offset of the first operation is not the new value of the first. -/
theorem new_value_counterexample :
    parse_pass Env.darwin 1 false "0 0x10 0xAA\n0 0x10 0xBB\n".toList =
        some (.ok [⟨0, false, 0x10, 0xAA⟩, ⟨0, false, 0x10, 0xBB⟩]) ∧
      (MemFile.of [0x10]).data[0]? = some 0x10 ∧
      (apply_patch Env.darwin MemFile.io (MemFile.of [0x10])
          (some "0 0x10 0xAA\n0 0x10 0xBB\n".toList) false false).map
        (fun r => (r.rv, r.fd.data)) = some (0, [0xBB]) := by
  decide

/-- C1 as amended. When the script parses, every operation expects the byte that the
resource holds at its offset, and operations sharing an offset share their new value,
`apply_patch` (force off, undo off) returns 0 and afterwards the byte at the offset of
every operation is that operation's new value. -/
theorem apply_patch_new_values (env : Env) (m : MemFile) (f : List Char) (ops : List PATCH)
    (hparse : parse_pass env m.data.length false f = some (.ok ops))
    (hold : ∀ p ∈ ops, m.data[p.off]? = some p.ov)
    (hcoh : Coherent ops) :
    ∃ r, apply_patch env MemFile.io m (some f) false false = some r ∧ r.rv = 0 ∧
      ∀ p ∈ ops, r.fd.data[p.off]? = some p.nv := by
  have hfit : ∀ p ∈ ops, m.data[p.off]? = some p.ov ∨ m.data[p.off]? = some p.nv :=
    fun p hp => Or.inl (hold p hp)
  obtain ⟨r, hr, hrv, hdata, -, -⟩ := apply_mem_ok env m f false false ops hparse hfit
  refine ⟨r, hr, hrv, ?_⟩
  rw [hdata]
  exact patched_resolve_new m.data ops hcoh hfit

theorem apply_patch_new_values_witness :
    parse_pass Env.darwin 3 false "0 0x10 0xAA\n1 0x20 0xBB\n".toList =
        some (.ok [⟨0, false, 0x10, 0xAA⟩, ⟨1, false, 0x20, 0xBB⟩]) ∧
      ∃ r, apply_patch Env.darwin MemFile.io (MemFile.of [0x10, 0x20, 0x30])
          (some "0 0x10 0xAA\n1 0x20 0xBB\n".toList) false false = some r ∧ r.rv = 0 ∧
        ∀ p ∈ [(⟨0, false, 0x10, 0xAA⟩ : PATCH), ⟨1, false, 0x20, 0xBB⟩],
          r.fd.data[p.off]? = some p.nv :=
  ⟨by decide,
    apply_patch_new_values Env.darwin (MemFile.of [0x10, 0x20, 0x30])
      "0 0x10 0xAA\n1 0x20 0xBB\n".toList [⟨0, false, 0x10, 0xAA⟩, ⟨1, false, 0x20, 0xBB⟩]
      (by decide) (by decide) (by unfold Coherent; decide)⟩

/-- C2. When the script parses and the byte at the offset of some operation is neither the
old nor the new value of that operation, `apply_patch` without force returns -1, the
content of the resource is what it was, and no write was called on it. -/
theorem conflict_writes_nothing (env : Env) (m : MemFile) (f : List Char) (undo : Bool)
    (ops : List PATCH)
    (hparse : parse_pass env m.data.length undo f = some (.ok ops))
    (hconf : ∃ p ∈ ops, ∃ b, m.data[p.off]? = some b ∧ b ≠ p.ov ∧ b ≠ p.nv) :
    ∃ r, apply_patch env MemFile.io m (some f) false undo = some r ∧ r.rv = -1 ∧
      r.fd.data = m.data ∧
      ∃ cs, r.fd.calls = m.calls ++ cs ∧ ∀ c ∈ cs, c.is_write = false := by
  have hrv : (validate_loop MemFile.io false m ops).rv = -1 := by
    apply validate_mem_conflict
    obtain ⟨p, hp, b, hb, h1, h2⟩ := hconf
    refine ⟨p, hp, ?_⟩
    rw [hb]
    simp only [Option.some.injEq, not_or]
    exact ⟨h1, h2⟩
  rw [apply_mem_unfold env m f false undo ops hparse, hrv, if_pos (by decide)]
  exact ⟨_, rfl, rfl, validate_mem_data false ops m⟩

theorem conflict_writes_nothing_witness :
    parse_pass Env.darwin 1 false "0 0x99 0xAA\n".toList = some (.ok [⟨0, false, 0x99, 0xAA⟩]) ∧
    ∃ r, apply_patch Env.darwin MemFile.io (MemFile.of [0x10]) (some "0 0x99 0xAA\n".toList)
        false false = some r ∧ r.rv = -1 ∧ r.fd.data = [0x10] ∧
      ∃ cs, r.fd.calls = [] ++ cs ∧ ∀ c ∈ cs, c.is_write = false :=
  ⟨by decide,
    conflict_writes_nothing Env.darwin (MemFile.of [0x10]) "0 0x99 0xAA\n".toList false
      [⟨0, false, 0x99, 0xAA⟩] (by decide) ⟨_, List.mem_singleton.mpr rfl, 0x10, by decide⟩⟩


/-- C3, the case in which it fails. The script applies to `[0x10]` with success and leaves
`[0xBB]`; applied again to the resource it left, the same script is rejected, because the
first operation now finds neither its old value 0x10 nor its new value 0xAA. -/
theorem reapply_counterexample :
    (apply_patch Env.darwin MemFile.io (MemFile.of [0x10])
        (some "0 0x10 0xAA\n0 0x10 0xBB\n".toList) false false).map
      (fun r => (r.rv, r.fd.data)) = some (0, [0xBB]) ∧
    ((apply_patch Env.darwin MemFile.io (MemFile.of [0x10])
        (some "0 0x10 0xAA\n0 0x10 0xBB\n".toList) false false).bind
      (fun r => apply_patch Env.darwin MemFile.io r.fd
        (some "0 0x10 0xAA\n0 0x10 0xBB\n".toList) false false)).map
      (fun r => (r.rv, r.err)) = some (-1, [.mismatch 0 0xBB 0x10]) := by
  decide

/-- C3 as amended. When a first run of `apply_patch` (force off, undo off) succeeds on a
script whose operations share their new value wherever they share an offset, a second run
of the same script on the resource left by the first also returns 0, its validation marks
every operation `skip` and reports no mismatch, no write is called, and the content stays
what the first run left. -/
theorem reapply_is_noop (env : Env) (m : MemFile) (f : List Char) (ops : List PATCH)
    (r1 : Ret MemFile)
    (hparse : parse_pass env m.data.length false f = some (.ok ops))
    (hcoh : Coherent ops)
    (hrun : apply_patch env MemFile.io m (some f) false false = some r1)
    (hrv : r1.rv = 0) :
    ∃ r2, apply_patch env MemFile.io r1.fd (some f) false false = some r2 ∧ r2.rv = 0 ∧
      r2.fd.data = r1.fd.data ∧
      (∀ p ∈ (validate_loop MemFile.io false r1.fd ops).patches, p.skip = true) ∧
      (∀ o c v, Msg.mismatch o c v ∉ r2.err) ∧
      ∃ cs, r2.fd.calls = r1.fd.calls ++ cs ∧ ∀ c ∈ cs, c.is_write = false := by
  have hfit : ∀ p ∈ ops, m.data[p.off]? = some p.ov ∨ m.data[p.off]? = some p.nv := by
    apply validate_mem_fits
    by_contra hne
    rw [apply_mem_unfold env m f false false ops hparse, if_pos hne] at hrun
    rw [← Option.some.inj hrun] at hrv
    exact hne hrv
  obtain ⟨r, hr, -, hdata, -, -⟩ := apply_mem_ok env m f false false ops hparse hfit
  rw [hrun] at hr
  obtain rfl := Option.some.inj hr
  have hnew : ∀ p ∈ ops, r1.fd.data[p.off]? = some p.nv := by
    rw [hdata]
    exact patched_resolve_new m.data ops hcoh hfit
  have hlen : r1.fd.data.length = m.data.length := by rw [hdata, patched_length]
  have hparse2 : parse_pass env r1.fd.data.length false f = some (.ok ops) := by rw [hlen, hparse]
  have hfit2 : ∀ p ∈ ops, r1.fd.data[p.off]? = some p.ov ∨ r1.fd.data[p.off]? = some p.nv :=
    fun p hp => Or.inr (hnew p hp)
  obtain ⟨hv1, hv2, hv3⟩ := validate_mem_ok false ops r1.fd hfit2
  obtain ⟨hd, cs, hcs, hnw⟩ := validate_mem_data false ops r1.fd
  have hskip : ∀ p ∈ (validate_loop MemFile.io false r1.fd ops).patches, p.skip = true := by
    rw [hv2]
    intro p hp
    obtain ⟨q, hq, rfl⟩ := List.mem_map.mp hp
    simpa [resolve] using hnew q hq
  obtain ⟨hw1, hw2, hw3⟩ := write_mem_all_skip _ (validate_loop MemFile.io false r1.fd ops).fd hskip
  rw [apply_mem_unfold env r1.fd f false false ops hparse2, if_neg (by rw [hv1]; simp)]
  refine ⟨_, rfl, hw1, ?_, hskip, ?_, cs, ?_, hnw⟩
  · show (write_loop MemFile.io _ _).fd.data = _
    rw [hw2, hd]
  · intro o c v hmem
    change Msg.mismatch o c v ∈ (validate_loop MemFile.io false r1.fd ops).err ++ _ at hmem
    rw [hw3, List.append_nil] at hmem
    exact hv3 o c v hmem
  · show (write_loop MemFile.io _ _).fd.calls = _
    rw [hw2, hcs]

theorem reapply_is_noop_witness :
    parse_pass Env.darwin 3 false "0 0x10 0xAA\n1 0x20 0xBB\n".toList =
        some (.ok [⟨0, false, 0x10, 0xAA⟩, ⟨1, false, 0x20, 0xBB⟩]) ∧
      Coherent [⟨0, false, 0x10, 0xAA⟩, ⟨1, false, 0x20, 0xBB⟩] ∧
      apply_patch Env.darwin MemFile.io (MemFile.of [0x10, 0x20, 0x30])
          (some "0 0x10 0xAA\n1 0x20 0xBB\n".toList) false false =
        some ⟨0, ⟨[0xAA, 0xBB, 0x30], 2,
          [.lseek 0, .read, .lseek 1, .read, .lseek 0, .write 0xAA, .lseek 1, .write 0xBB]⟩, []⟩ ∧
      ∃ r2, apply_patch Env.darwin MemFile.io
          ⟨[0xAA, 0xBB, 0x30], 2,
            [.lseek 0, .read, .lseek 1, .read, .lseek 0, .write 0xAA, .lseek 1, .write 0xBB]⟩
          (some "0 0x10 0xAA\n1 0x20 0xBB\n".toList) false false = some r2 ∧ r2.rv = 0 ∧
        r2.fd.data = [0xAA, 0xBB, 0x30] ∧
        (∀ p ∈ (validate_loop MemFile.io false
            ⟨[0xAA, 0xBB, 0x30], 2,
              [.lseek 0, .read, .lseek 1, .read, .lseek 0, .write 0xAA, .lseek 1, .write 0xBB]⟩
            [⟨0, false, 0x10, 0xAA⟩, ⟨1, false, 0x20, 0xBB⟩]).patches, p.skip = true) ∧
        (∀ o c v, Msg.mismatch o c v ∉ r2.err) ∧
        ∃ cs, r2.fd.calls =
            [.lseek 0, .read, .lseek 1, .read, .lseek 0, .write 0xAA, .lseek 1, .write 0xBB] ++ cs ∧
          ∀ c ∈ cs, c.is_write = false :=
  ⟨by decide, by unfold Coherent; decide, by decide,
    reapply_is_noop Env.darwin (MemFile.of [0x10, 0x20, 0x30]) "0 0x10 0xAA\n1 0x20 0xBB\n".toList
      [⟨0, false, 0x10, 0xAA⟩, ⟨1, false, 0x20, 0xBB⟩]
      ⟨0, ⟨[0xAA, 0xBB, 0x30], 2,
        [.lseek 0, .read, .lseek 1, .read, .lseek 0, .write 0xAA, .lseek 1, .write 0xBB]⟩, []⟩
      (by decide) (by unfold Coherent; decide) (by decide) rfl⟩

/-- C4, the case in which it fails. The resource `[0xAA]` already holds the new value of
the only operation, so the forward run succeeds without writing; the undo run then succeeds
and writes the old value 0x10, which the resource did not hold before the forward run. -/
theorem undo_counterexample :
    (apply_patch Env.darwin MemFile.io (MemFile.of [0xAA]) (some "0 0x10 0xAA\n".toList)
        false false).map (fun r => (r.rv, r.fd.data)) = some (0, [0xAA]) ∧
    ((apply_patch Env.darwin MemFile.io (MemFile.of [0xAA]) (some "0 0x10 0xAA\n".toList)
        false false).bind
      (fun r => apply_patch Env.darwin MemFile.io r.fd (some "0 0x10 0xAA\n".toList)
        false true)).map (fun r => (r.rv, r.fd.data)) = some (0, [0x10]) := by
  decide

/-- C4 as amended. When every operation of the script expects the byte that the resource
holds at its offset and operations sharing an offset share their new value, the forward run
of `apply_patch` returns 0, and the run of the same script with undo on the resource left by
the forward run returns 0 and leaves the content that the resource had before the forward
run. -/
theorem undo_restores (env : Env) (m : MemFile) (f : List Char) (ops : List PATCH)
    (r1 : Ret MemFile)
    (hparse : parse_pass env m.data.length false f = some (.ok ops))
    (hold : ∀ p ∈ ops, m.data[p.off]? = some p.ov)
    (hcoh : Coherent ops)
    (hrun : apply_patch env MemFile.io m (some f) false false = some r1) :
    r1.rv = 0 ∧
      ∃ r2, apply_patch env MemFile.io r1.fd (some f) false true = some r2 ∧ r2.rv = 0 ∧
        r2.fd.data = m.data := by
  have hfit : ∀ p ∈ ops, m.data[p.off]? = some p.ov ∨ m.data[p.off]? = some p.nv :=
    fun p hp => Or.inl (hold p hp)
  obtain ⟨r, hr, hrv, hdata, -, -⟩ := apply_mem_ok env m f false false ops hparse hfit
  rw [hrun] at hr
  obtain rfl := Option.some.inj hr
  refine ⟨hrv, ?_⟩
  have hnew : ∀ p ∈ ops, r1.fd.data[p.off]? = some p.nv := by
    rw [hdata]
    exact patched_resolve_new m.data ops hcoh hfit
  have hlen : r1.fd.data.length = m.data.length := by rw [hdata, patched_length]
  have hparse2 : parse_pass env r1.fd.data.length true f = some (.ok (ops.map PATCH.swap)) := by
    rw [hlen]
    exact parse_pass_undo env _ f ops hparse
  have hfit2 : ∀ p ∈ ops.map PATCH.swap,
      r1.fd.data[p.off]? = some p.ov ∨ r1.fd.data[p.off]? = some p.nv := by
    intro p hp
    obtain ⟨q, hq, rfl⟩ := List.mem_map.mp hp
    exact Or.inl (hnew q hq)
  have hcoh2 : Coherent (ops.map PATCH.swap) := by
    intro p hp q hq hpq
    obtain ⟨a, ha, rfl⟩ := List.mem_map.mp hp
    obtain ⟨b, hb, rfl⟩ := List.mem_map.mp hq
    have h1 := hold a ha
    have h2 := hold b hb
    have hab : a.off = b.off := hpq
    rw [hab, h2] at h1
    exact (Option.some.inj h1).symm
  obtain ⟨r2, hr2, hrv2, hdata2, -, -⟩ :=
    apply_mem_ok env r1.fd f false true (ops.map PATCH.swap) hparse2 hfit2
  refine ⟨r2, hr2, hrv2, ?_⟩
  rw [hdata2]
  apply List.ext_getElem?
  intro o
  by_cases hex : ∃ p ∈ ops, p.off = o
  · obtain ⟨p, hp, rfl⟩ := hex
    have := patched_resolve_new r1.fd.data (ops.map PATCH.swap) hcoh2 hfit2 p.swap
      (List.mem_map_of_mem _ hp)
    rw [show p.off = p.swap.off from rfl, this]
    exact (hold p hp).symm
  · push_neg at hex
    rw [patched_untouched, hdata, patched_untouched]
    · intro p hp _
      obtain ⟨q, hq, rfl⟩ := List.mem_map.mp hp
      exact hex q hq
    · intro p hp _
      obtain ⟨q, hq, rfl⟩ := List.mem_map.mp hp
      obtain ⟨a, ha, rfl⟩ := List.mem_map.mp hq
      exact hex a ha

theorem undo_restores_witness :
    parse_pass Env.darwin 3 false "0 0x10 0xAA\n1 0x20 0xBB\n".toList =
        some (.ok [⟨0, false, 0x10, 0xAA⟩, ⟨1, false, 0x20, 0xBB⟩]) ∧
      Coherent [⟨0, false, 0x10, 0xAA⟩, ⟨1, false, 0x20, 0xBB⟩] ∧
      apply_patch Env.darwin MemFile.io (MemFile.of [0x10, 0x20, 0x30])
          (some "0 0x10 0xAA\n1 0x20 0xBB\n".toList) false false =
        some ⟨0, ⟨[0xAA, 0xBB, 0x30], 2,
          [.lseek 0, .read, .lseek 1, .read, .lseek 0, .write 0xAA, .lseek 1, .write 0xBB]⟩, []⟩ ∧
      ∃ r2, apply_patch Env.darwin MemFile.io
          ⟨[0xAA, 0xBB, 0x30], 2,
            [.lseek 0, .read, .lseek 1, .read, .lseek 0, .write 0xAA, .lseek 1, .write 0xBB]⟩
          (some "0 0x10 0xAA\n1 0x20 0xBB\n".toList) false true = some r2 ∧ r2.rv = 0 ∧
        r2.fd.data = [0x10, 0x20, 0x30] :=
  ⟨by decide, by unfold Coherent; decide, by decide,
    (undo_restores Env.darwin (MemFile.of [0x10, 0x20, 0x30])
      "0 0x10 0xAA\n1 0x20 0xBB\n".toList [⟨0, false, 0x10, 0xAA⟩, ⟨1, false, 0x20, 0xBB⟩]
      ⟨0, ⟨[0xAA, 0xBB, 0x30], 2,
        [.lseek 0, .read, .lseek 1, .read, .lseek 0, .write 0xAA, .lseek 1, .write 0xBB]⟩, []⟩
      (by decide) (by decide) (by unfold Coherent; decide) (by decide)).2⟩


/-- C5, the case in which it fails. The resource has length 1 and the only line of the
script has offset 1, equal to the length: the parse pass accepts the line, and the
validation loop then seeks to offset 1 and calls read there. -/
theorem offset_at_length_counterexample :
    parse_pass Env.darwin 1 false "1 0x10 0xAA\n".toList = some (.ok [⟨1, false, 0x10, 0xAA⟩]) ∧
      apply_patch Env.darwin MemFile.io (MemFile.of [0x10]) (some "1 0x10 0xAA\n".toList)
          false false =
        some ⟨-1, ⟨[0x10], 1, [.lseek 1, .read]⟩, [.cannot_read 1]⟩ := by
  decide

/-- C5 as amended. When a script holds, after lines that parse, a line that scans as an
operation whose offset is greater than the length of the resource, `apply_patch` returns -1
from the parse pass with the `too big` message, and the handle is in the state in which it
was passed: no seek, read or write was made on it. -/
theorem offset_beyond_length_rejected {σ : Type} (env : Env) (io : FHANDLE σ) (fd : σ)
    (pre ln post : List Char) (ops : List PATCH) (off ov nv : Nat) (force undo : Bool)
    (hlen : 0 ≤ io.length fd)
    (hpre : parse_pass env (io.length fd).toNat undo pre = some (.ok ops))
    (hln : fgets env.BUFSIZ (ln ++ post) = some (ln, post))
    (hop : scan_line ln = .op off ov nv)
    (hoff : off > (io.length fd).toNat) :
    apply_patch env io fd (some (pre ++ ln ++ post)) force undo =
      some ⟨-1, fd, [.parse (.too_big off)]⟩ := by
  apply apply_patch_parse_error env io fd _ force undo _ hlen
  apply parse_pass_leave env _ undo pre ln post ops _ hpre hln
  intro max
  simp [loop_body, hop, hoff]

theorem offset_beyond_length_rejected_witness :
    (0 : Int) ≤ MemFile.io.length (MemFile.of [0x10, 0x20]) ∧
      parse_pass Env.darwin (MemFile.io.length (MemFile.of [0x10, 0x20])).toNat false
          "0 0x10 0xAA\n".toList = some (.ok [⟨0, false, 0x10, 0xAA⟩]) ∧
      fgets Env.darwin.BUFSIZ ("3 0x20 0xBB\n".toList ++ "1 0x20 0xBB\n".toList) =
        some ("3 0x20 0xBB\n".toList, "1 0x20 0xBB\n".toList) ∧
      scan_line "3 0x20 0xBB\n".toList = .op 3 0x20 0xBB ∧
      3 > (MemFile.io.length (MemFile.of [0x10, 0x20])).toNat ∧
      apply_patch Env.darwin MemFile.io (MemFile.of [0x10, 0x20])
          (some ("0 0x10 0xAA\n".toList ++ "3 0x20 0xBB\n".toList ++ "1 0x20 0xBB\n".toList))
          false false =
        some ⟨-1, MemFile.of [0x10, 0x20], [.parse (.too_big 3)]⟩ :=
  ⟨by decide, by decide, by decide, by decide, by decide,
    offset_beyond_length_rejected Env.darwin MemFile.io (MemFile.of [0x10, 0x20])
      "0 0x10 0xAA\n".toList "3 0x20 0xBB\n".toList "1 0x20 0xBB\n".toList
      [⟨0, false, 0x10, 0xAA⟩] 3 0x20 0xBB false false (by decide) (by decide) (by decide)
      (by decide) (by decide)⟩

/-- C7, two cases in which it fails. A carriage return directly before a comment: the
line `"\r#c"` is a malformed line, while the stripped script `"\r\n"` parses, to no
operation. And a line that exceeds the buffer only by its comment: the script is a
malformed line as a whole, while the stripped script parses to one operation. -/
theorem comment_strip_counterexample :
    (unlines (strip_comments ["\r#c".toList]) = "\r\n".toList ∧
      parse_pass Env.darwin 0 false (unlines ["\r#c".toList]) = some (.error .malformed) ∧
      parse_pass Env.darwin 0 false (unlines (strip_comments ["\r#c".toList])) = some (.ok [])) ∧
    (unlines (strip_comments ["0 1 2 #".toList ++ List.replicate 1020 'x']) = "0 1 2 \n".toList ∧
      parse_pass Env.darwin 0 false (unlines ["0 1 2 #".toList ++ List.replicate 1020 'x']) =
        some (.error .malformed) ∧
      parse_pass Env.darwin 0 false
          (unlines (strip_comments ["0 1 2 #".toList ++ List.replicate 1020 'x'])) =
        some (.ok [⟨0, false, 1, 2⟩])) := by
  refine ⟨by decide, ?_, ?_, ?_⟩
  · set_option maxRecDepth 100000 in decide
  · set_option maxRecDepth 100000 in decide
  · set_option maxRecDepth 100000 in decide

/-- C7 as amended. For a script of newline-terminated lines, none of which holds a NUL,
exceeds the buffer or has a carriage return directly before its first comment character,
the parse pass gives the same result (the same operations, or the same error) as on the
script in which every comment is removed and every line left empty is deleted. -/
theorem parse_invariant_under_comments (env : Env) (length : Nat) (undo : Bool)
    (ls : List (List Char))
    (h : ∀ l ∈ ls, '\n' ∉ l ∧ '\x00' ∉ l ∧ l.length + 1 < env.BUFSIZ ∧
      (uncomment l ≠ l → (uncomment l).getLast? ≠ some '\r')) :
    parse_pass env length undo (unlines (strip_comments ls)) =
      parse_pass env length undo (unlines ls) :=
  parse_from_strip env length undo ls h [] 0


theorem parse_invariant_under_comments_witness :
    (∀ l ∈ ["0 0x10 0xAA # first".toList, "; note".toList, [], "1 0x20 0xBB\r".toList],
        '\n' ∉ l ∧ '\x00' ∉ l ∧ l.length + 1 < Env.darwin.BUFSIZ ∧
          (uncomment l ≠ l → (uncomment l).getLast? ≠ some '\r')) ∧
      unlines (strip_comments
          ["0 0x10 0xAA # first".toList, "; note".toList, [], "1 0x20 0xBB\r".toList]) =
        "0 0x10 0xAA \n1 0x20 0xBB\r\n".toList ∧
      parse_pass Env.darwin 3 false (unlines (strip_comments
          ["0 0x10 0xAA # first".toList, "; note".toList, [], "1 0x20 0xBB\r".toList])) =
        parse_pass Env.darwin 3 false
          (unlines ["0 0x10 0xAA # first".toList, "; note".toList, [], "1 0x20 0xBB\r".toList]) :=
  ⟨by decide, by decide,
    parse_invariant_under_comments Env.darwin 3 false
      ["0 0x10 0xAA # first".toList, "; note".toList, [], "1 0x20 0xBB\r".toList] (by decide)⟩

/-- C8, the case in which it fails. The empty script parses, to no operation; with a line
holding one space, or a tab and a comment, inserted, the parse pass ends in the `malformed
line` error. -/
theorem blank_line_counterexample :
    parse_pass Env.darwin 3 false [] = some (.ok []) ∧
      parse_pass Env.darwin 3 false " \n".toList = some (.error .malformed) ∧
      parse_pass Env.darwin 3 false "\t# note\n".toList = some (.error .malformed) ∧
      parse_pass Env.darwin 3 false "0 0x10 0xAA\n".toList = some (.ok [⟨0, false, 0x10, 0xAA⟩]) ∧
      parse_pass Env.darwin 3 false "0 0x10 0xAA\n  ; note\n".toList =
        some (.error .malformed) := by
  decide

/-- C8 as amended. After lines that parse, a line that is empty, holds only a carriage
return, or starts with `#` or `;` (no NUL in it, the line fitting the buffer) yields neither
an operation nor an error: with it inserted the parse pass gives the result it gives without
it. A line made of spaces and tabs, alone or followed by a comment, is not ignored: the
parse pass ends in the `malformed line` error. -/
theorem blank_line_rule (env : Env) (length : Nat) (undo : Bool)
    (pre c w cmt post : List Char) (ops : List PATCH)
    (hpre : parse_pass env length undo pre = some (.ok ops))
    (hc : '\n' ∉ c ∧ '\x00' ∉ c ∧ c.length + 1 < env.BUFSIZ)
    (hblank : c = [] ∨ c = ['\r'] ∨ c.head? = some '#' ∨ c.head? = some ';')
    (hw : w ≠ [] ∧ ∀ ch ∈ w, ch = ' ' ∨ ch = '\t')
    (hcmt : '\n' ∉ cmt ∧ (cmt = [] ∨ cmt.head? = some '#' ∨ cmt.head? = some ';')) :
    parse_pass env length undo (pre ++ (c ++ ['\n']) ++ post) =
        parse_pass env length undo (pre ++ post) ∧
      parse_pass env length undo (pre ++ (w ++ cmt ++ ['\n']) ++ post) =
        some (.error .malformed) := by
  obtain ⟨max1, h⟩ := parse_from_append_ok env length undo pre [] 0 ops hpre
  obtain ⟨hnl, hnul, hfit⟩ := hc
  constructor
  · rw [parse_pass_eq, parse_pass_eq, List.append_assoc, h, h]
    have hf : fgets env.BUFSIZ (c ++ ['\n'] ++ post) = some (c ++ ['\n'], post) := by
      rw [List.append_assoc]
      exact fgets_of_line env.BUFSIZ c post hnl hfit
    apply parse_from_next env length undo _ _ _ ops ops max1 max1 hf
    apply loop_body_blank _ _ _ _ _ _ (newline_in_cstr c hnul)
    rw [strip_line_of_line c hnl hnul]
    rcases hblank with rfl | rfl | hh | hh
    · rfl
    · rfl
    · obtain ⟨t, rfl⟩ : ∃ t, c = '#' :: t := by
        cases c with
        | nil => simp at hh
        | cons a t => exact ⟨t, by simp at hh; rw [hh]⟩
      split
      · rename_i hr
        cases t with
        | nil => simp at hr
        | cons b t => simp [uncomment, List.dropLast]
      · simp [uncomment]
    · obtain ⟨t, rfl⟩ : ∃ t, c = ';' :: t := by
        cases c with
        | nil => simp at hh
        | cons a t => exact ⟨t, by simp at hh; rw [hh]⟩
      split
      · rename_i hr
        cases t with
        | nil => simp at hr
        | cons b t => simp [uncomment, List.dropLast]
      · simp [uncomment]
  · rw [parse_pass_eq, List.append_assoc, h]
    have hne : w ++ cmt ++ ['\n'] ++ post ≠ [] := by simp
    apply parse_from_leave env length undo _ _ _ ops max1 _ (fgets_some env.BUFSIZ _ hne)
    have : w ++ cmt ++ ['\n'] ++ post = w ++ cmt ++ '\n' :: post := by simp
    rw [this]
    unfold loop_body
    rw [scan_line_blanks _ w cmt post hw.1 hw.2 hcmt.1 hcmt.2]

theorem blank_line_rule_witness :
    parse_pass Env.darwin 3 false "0 0x10 0xAA\n".toList = some (.ok [⟨0, false, 0x10, 0xAA⟩]) ∧
      parse_pass Env.darwin 3 false
          ("0 0x10 0xAA\n".toList ++ ("# note".toList ++ ['\n']) ++ "1 0x20 0xBB\n".toList) =
        parse_pass Env.darwin 3 false ("0 0x10 0xAA\n".toList ++ "1 0x20 0xBB\n".toList) ∧
      parse_pass Env.darwin 3 false
          ("0 0x10 0xAA\n".toList ++ ("  ".toList ++ "# note".toList ++ ['\n']) ++
            "1 0x20 0xBB\n".toList) =
        some (.error .malformed) :=
  ⟨by decide,
    blank_line_rule Env.darwin 3 false "0 0x10 0xAA\n".toList "# note".toList "  ".toList
      "# note".toList "1 0x20 0xBB\n".toList [⟨0, false, 0x10, 0xAA⟩] (by decide) (by decide)
      (by decide) (by decide) (by decide)⟩


/-! ## Claims about the stream materializer -/

/-- C9, on the input at which the code departs from it. The source reports 4096 bytes but
yields 4096 and then 4096 more; the destination accepts the first chunk whole and 100 bytes
of the second. The short write leaves the loop with the counter at 0, so both functions
return the destination handle without closing it, although the destination accepted 4196
bytes, not 4096. -/
theorem short_write_at_zero_count :
    make_img4 (some ⟨4096, [4096, 4096]⟩) true true (some ⟨0, 0, [4096, 100], []⟩) =
        ⟨some ⟨0, 0, [], [.lseek 0, .write 4096, .write 4096]⟩,
          some ⟨0, 0, [], [.lseek 0, .write 4096, .write 4096]⟩, 4196⟩ ∧
      replace_img4 (some ⟨4096, [4096, 4096]⟩) true (some ⟨0, 0, [4096, 100], []⟩) =
        ⟨some ⟨0, 0, [], [.ftruncate 4096, .lseek 0, .write 4096, .write 4096]⟩,
          some ⟨0, 0, [], [.ftruncate 4096, .lseek 0, .write 4096, .write 4096]⟩, 4196⟩ := by
  decide

/-- C10, on the input at which the code departs from it. The destination reports failure
(-1) for `ftruncate` and the offset 5 for the seek to offset 0; `replace_img4` goes on to
copy the three bytes of the source and returns the destination handle, and so does
`make_img4` after the seek to offset 0 that reports offset 5. -/
theorem seek_truncate_results_unchecked :
    replace_img4 (some ⟨3, [3]⟩) true (some ⟨-1, 5, [3], []⟩) =
        ⟨some ⟨-1, 5, [], [.ftruncate 3, .lseek 0, .write 3]⟩,
          some ⟨-1, 5, [], [.ftruncate 3, .lseek 0, .write 3]⟩, 3⟩ ∧
      make_img4 (some ⟨3, [3]⟩) true true (some ⟨0, 5, [3], []⟩) =
        ⟨some ⟨0, 5, [], [.lseek 0, .write 3]⟩, some ⟨0, 5, [], [.lseek 0, .write 3]⟩, 3⟩ := by
  decide

/-! ## Claims about force mode, apply-phase failures, the extent of validation, byte literals -/

/-- C12, the case in which it fails. With force, validation stops at the third operation
and the write loop writes the first three; both the first and the second are resolved to
apply and target offset 0. The write of the fourth operation, at the offset equal to the
length, reports no byte and `apply_patch` returns -1. Offset 0 then holds the new value
0xBB of the second operation, not the new value 0xAA of the first. -/
theorem apply_failure_counterexample :
    validate_loop MemFile.io true (MemFile.of [0x10, 0x20])
        [⟨0, false, 0x10, 0xAA⟩, ⟨0, false, 0x10, 0xBB⟩, ⟨1, false, 0x99, 0xCC⟩,
          ⟨2, false, 0x00, 0xDD⟩] =
      ⟨⟨[0x10, 0x20], 2, [.lseek 0, .read, .lseek 0, .read, .lseek 1, .read]⟩, 0,
        [⟨0, false, 0x10, 0xAA⟩, ⟨0, false, 0x10, 0xBB⟩, ⟨1, false, 0x99, 0xCC⟩,
          ⟨2, false, 0x00, 0xDD⟩],
        [.mismatch 1 0x20 0x99]⟩ ∧
      apply_patch Env.darwin MemFile.io (MemFile.of [0x10, 0x20])
          (some "0 0x10 0xAA\n0 0x10 0xBB\n1 0x99 0xCC\n2 0x00 0xDD\n".toList) true false =
        some ⟨-1, ⟨[0xBB, 0xCC], 2,
            [.lseek 0, .read, .lseek 0, .read, .lseek 1, .read, .lseek 0, .write 0xAA,
              .lseek 0, .write 0xBB, .lseek 1, .write 0xCC, .lseek 2, .write 0xDD]⟩,
          [.mismatch 1 0x20 0x99, .cannot_patch 2]⟩ := by
  decide

/-- C12 as amended. On a byte store, when the script parses and validation returns 0
leaving the operations `pre ++ p :: post`, the write loop gets through `pre`, and for the
operation `p`, which is not marked `skip`, the seek lands on another offset or the write
reports a count other than 1: `apply_patch` returns -1; the handle is left in the state
that the failing call of `p` produced from the state in which the writes of `pre` had left
it, so no operation of `post` is sought or written; the content is the one that the writes
of `pre` left; in it the offset of every operation of `pre` that was written holds the new
value of the last operation of `pre` written at that offset, and every offset at which no
operation of `pre` was written holds what it held before the call. -/
theorem apply_failure_keeps_writes {σ : Type} (env : Env) (io : FHANDLE σ) (bs : ByteStore io)
    (fd : σ) (f : List Char) (force undo : Bool) (ops pre : List PATCH) (p : PATCH)
    (post : List PATCH)
    (hlen : 0 ≤ io.length fd)
    (hparse : parse_pass env (io.length fd).toNat undo f = some (.ok ops))
    (hval : (validate_loop io force fd ops).rv = 0)
    (hsplit : (validate_loop io force fd ops).patches = pre ++ p :: post)
    (hpre : (write_loop io (validate_loop io force fd ops).fd pre).rv = 0)
    (hs : p.skip = false)
    (hfail :
      (io.lseek (write_loop io (validate_loop io force fd ops).fd pre).fd p.off).2 ≠ p.off ∨
      (io.write1 (io.lseek (write_loop io (validate_loop io force fd ops).fd pre).fd p.off).1
        p.nv).2 ≠ 1) :
    ∃ r, apply_patch env io fd (some f) force undo = some r ∧ r.rv = -1 ∧
      r.fd =
        (if (io.lseek (write_loop io (validate_loop io force fd ops).fd pre).fd p.off).2 ≠ p.off
          then (io.lseek (write_loop io (validate_loop io force fd ops).fd pre).fd p.off).1
          else (io.write1
            (io.lseek (write_loop io (validate_loop io force fd ops).fd pre).fd p.off).1
            p.nv).1) ∧
      bs.content r.fd = bs.content (write_loop io (validate_loop io force fd ops).fd pre).fd ∧
      (∀ a q b, pre = a ++ q :: b → q.skip = false →
        (∀ x ∈ b, x.skip = false → x.off ≠ q.off) → (bs.content r.fd)[q.off]? = some q.nv) ∧
      ∀ o, (∀ x ∈ pre, x.skip = false → x.off ≠ o) →
        (bs.content r.fd)[o]? = (bs.content fd)[o]? := by
  obtain ⟨ha1, ha2, -⟩ := write_loop_append io (validate_loop io force fd ops).fd pre
    (p :: post) hpre
  obtain ⟨hf1, hf2, -⟩ := write_loop_fail io
    (write_loop io (validate_loop io force fd ops).fd pre).fd p post hs hfail
  have hcontent : bs.content
      (if (io.lseek (write_loop io (validate_loop io force fd ops).fd pre).fd p.off).2 ≠ p.off
        then (io.lseek (write_loop io (validate_loop io force fd ops).fd pre).fd p.off).1
        else (io.write1
          (io.lseek (write_loop io (validate_loop io force fd ops).fd pre).fd p.off).1
          p.nv).1) =
      bs.content (write_loop io (validate_loop io force fd ops).fd pre).fd := by
    by_cases hk : (io.lseek (write_loop io (validate_loop io force fd ops).fd pre).fd p.off).2
        ≠ p.off
    · rw [if_pos hk, bs.lseek_content]
    · rw [if_neg hk]
      have hw := hfail.resolve_left hk
      rw [bs.write_failed _ _ hw, bs.lseek_content]
  simp only [apply_patch, if_neg (not_lt.mpr hlen), hparse]
  rw [if_neg (by rw [hval]; simp), hsplit]
  refine ⟨_, rfl, by rw [ha2, hf1], by rw [ha1, hf2], ?_, ?_, ?_⟩
  · show bs.content (write_loop io _ (pre ++ p :: post)).fd = _
    rw [ha1, hf2, hcontent]
  · intro a q b hq hqs hb
    show (bs.content (write_loop io _ (pre ++ p :: post)).fd)[q.off]? = _
    rw [ha1, hf2, hcontent]
    subst hq
    exact write_loop_last io bs _ a q b hpre hqs hb
  · intro o ho
    show (bs.content (write_loop io _ (pre ++ p :: post)).fd)[o]? = _
    rw [ha1, hf2, hcontent, write_loop_untouched io bs pre _ o ho,
      validate_loop_content io bs force ops fd]

theorem apply_failure_keeps_writes_witness :
    (0 : Int) ≤ MemFile.io.length (MemFile.of [0x10, 0x20, 0x30]) ∧
      parse_pass Env.darwin (MemFile.io.length (MemFile.of [0x10, 0x20, 0x30])).toNat false
          "0 0x10 0xAA\n0 0x10 0xBB\n1 0x99 0xCC\n3 0x00 0xDD\n2 0x30 0xEE\n".toList =
        some (.ok [⟨0, false, 0x10, 0xAA⟩, ⟨0, false, 0x10, 0xBB⟩, ⟨1, false, 0x99, 0xCC⟩,
          ⟨3, false, 0x00, 0xDD⟩, ⟨2, false, 0x30, 0xEE⟩]) ∧
      validate_loop MemFile.io true (MemFile.of [0x10, 0x20, 0x30])
          [⟨0, false, 0x10, 0xAA⟩, ⟨0, false, 0x10, 0xBB⟩, ⟨1, false, 0x99, 0xCC⟩,
            ⟨3, false, 0x00, 0xDD⟩, ⟨2, false, 0x30, 0xEE⟩] =
        ⟨⟨[0x10, 0x20, 0x30], 2, [.lseek 0, .read, .lseek 0, .read, .lseek 1, .read]⟩, 0,
          [⟨0, false, 0x10, 0xAA⟩, ⟨0, false, 0x10, 0xBB⟩, ⟨1, false, 0x99, 0xCC⟩] ++
            (⟨3, false, 0x00, 0xDD⟩ : PATCH) :: [⟨2, false, 0x30, 0xEE⟩],
          [.mismatch 1 0x20 0x99]⟩ ∧
      (write_loop MemFile.io
          ⟨[0x10, 0x20, 0x30], 2, [.lseek 0, .read, .lseek 0, .read, .lseek 1, .read]⟩
          [⟨0, false, 0x10, 0xAA⟩, ⟨0, false, 0x10, 0xBB⟩, ⟨1, false, 0x99, 0xCC⟩]).rv = 0 ∧
      ∃ r, apply_patch Env.darwin MemFile.io (MemFile.of [0x10, 0x20, 0x30])
          (some "0 0x10 0xAA\n0 0x10 0xBB\n1 0x99 0xCC\n3 0x00 0xDD\n2 0x30 0xEE\n".toList)
          true false = some r ∧ r.rv = -1 ∧
        r.fd = ⟨[0xBB, 0xCC, 0x30], 3,
          [.lseek 0, .read, .lseek 0, .read, .lseek 1, .read, .lseek 0, .write 0xAA,
            .lseek 0, .write 0xBB, .lseek 1, .write 0xCC, .lseek 3, .write 0xDD]⟩ ∧
        MemFile.store.content r.fd = [0xBB, 0xCC, 0x30] ∧
        (∀ a q b, [(⟨0, false, 0x10, 0xAA⟩ : PATCH), ⟨0, false, 0x10, 0xBB⟩,
            ⟨1, false, 0x99, 0xCC⟩] = a ++ q :: b → q.skip = false →
          (∀ x ∈ b, x.skip = false → x.off ≠ q.off) →
          (MemFile.store.content r.fd)[q.off]? = some q.nv) ∧
        ∀ o, (∀ x ∈ [(⟨0, false, 0x10, 0xAA⟩ : PATCH), ⟨0, false, 0x10, 0xBB⟩,
            ⟨1, false, 0x99, 0xCC⟩], x.skip = false → x.off ≠ o) →
          (MemFile.store.content r.fd)[o]? =
            (MemFile.store.content (MemFile.of [0x10, 0x20, 0x30]))[o]? :=
  ⟨by decide, by decide, by decide, by decide,
    apply_failure_keeps_writes Env.darwin MemFile.io MemFile.store
      (MemFile.of [0x10, 0x20, 0x30])
      "0 0x10 0xAA\n0 0x10 0xBB\n1 0x99 0xCC\n3 0x00 0xDD\n2 0x30 0xEE\n".toList true false
      [⟨0, false, 0x10, 0xAA⟩, ⟨0, false, 0x10, 0xBB⟩, ⟨1, false, 0x99, 0xCC⟩,
        ⟨3, false, 0x00, 0xDD⟩, ⟨2, false, 0x30, 0xEE⟩]
      [⟨0, false, 0x10, 0xAA⟩, ⟨0, false, 0x10, 0xBB⟩, ⟨1, false, 0x99, 0xCC⟩]
      ⟨3, false, 0x00, 0xDD⟩ [⟨2, false, 0x30, 0xEE⟩]
      (by decide) (by decide) (by decide) (by decide) (by decide) rfl (Or.inr (by decide))⟩


/-- C13, the case in which it fails. The first operation finds its new value 0xAA instead
of its old value 0x10, an idempotent deviation; the validation loop goes on, seeks to the
offset of the second operation, reads it and marks the operation `skip`. -/
theorem idempotent_deviation_counterexample :
    validate_loop MemFile.io false (MemFile.of [0xAA, 0xBB])
        [⟨0, false, 0x10, 0xAA⟩, ⟨1, false, 0x20, 0xBB⟩] =
      ⟨⟨[0xAA, 0xBB], 2, [.lseek 0, .read, .lseek 1, .read]⟩, 0,
        [⟨0, true, 0x10, 0xAA⟩, ⟨1, true, 0x20, 0xBB⟩],
        [.already_patched 0 0xAA, .already_patched 1 0xBB]⟩ := by
  decide

/-- C13 as amended. The validation loop stops at the first operation whose byte is neither
its old nor its new value, and only there: the operations before it, those with an
idempotent deviation included, are all sought, read and resolved; the conflicting operation
is sought and read; no operation after it is sought, read or resolved. Without a conflict
every operation is sought, read and resolved. -/
theorem validation_stops_at_conflict (force : Bool) (m : MemFile) (pre rest : List PATCH)
    (hpre : ∀ q ∈ pre, m.data[q.off]? = some q.ov ∨ m.data[q.off]? = some q.nv)
    (hrest : ∀ p ∈ rest.head?, ∃ b, m.data[p.off]? = some b ∧ b ≠ p.ov ∧ b ≠ p.nv) :
    (validate_loop MemFile.io force m (pre ++ rest)).patches = pre.map (resolve m.data) ++ rest ∧
      (validate_loop MemFile.io force m (pre ++ rest)).fd.calls =
        m.calls ++ probes (pre ++ rest.take 1) :=
  ⟨(validate_mem_upto force pre rest m hpre hrest).1,
    (validate_mem_upto force pre rest m hpre hrest).2.1⟩

theorem validation_stops_at_conflict_witness :
    (∀ q ∈ [(⟨0, false, 0x10, 0xAA⟩ : PATCH), ⟨1, false, 0x20, 0xBB⟩],
        (MemFile.of [0xAA, 0x20, 0x30]).data[q.off]? = some q.ov ∨
          (MemFile.of [0xAA, 0x20, 0x30]).data[q.off]? = some q.nv) ∧
      (validate_loop MemFile.io false (MemFile.of [0xAA, 0x20, 0x30])
          ([⟨0, false, 0x10, 0xAA⟩, ⟨1, false, 0x20, 0xBB⟩] ++
            [⟨2, false, 0x99, 0xCC⟩, ⟨0, false, 0xAA, 0xDD⟩])).patches =
        [⟨0, true, 0x10, 0xAA⟩, ⟨1, false, 0x20, 0xBB⟩] ++
          [⟨2, false, 0x99, 0xCC⟩, ⟨0, false, 0xAA, 0xDD⟩] ∧
      (validate_loop MemFile.io false (MemFile.of [0xAA, 0x20, 0x30])
          ([⟨0, false, 0x10, 0xAA⟩, ⟨1, false, 0x20, 0xBB⟩] ++
            [⟨2, false, 0x99, 0xCC⟩, ⟨0, false, 0xAA, 0xDD⟩])).fd.calls =
        [] ++ [.lseek 0, .read, .lseek 1, .read, .lseek 2, .read] :=
  ⟨by decide,
    validation_stops_at_conflict false (MemFile.of [0xAA, 0x20, 0x30])
      [⟨0, false, 0x10, 0xAA⟩, ⟨1, false, 0x20, 0xBB⟩]
      [⟨2, false, 0x99, 0xCC⟩, ⟨0, false, 0xAA, 0xDD⟩] (by decide)
      (by intro p hp
          simp only [List.head?_cons, Option.mem_def, Option.some.injEq] at hp
          subst hp
          exact ⟨0x30, by decide⟩)⟩


/-- C14. On a line whose three conversions succeed, to the values `v1`, `v2` and `v3`,
the loop body stores the bytes `v2 % 256` and `v3 % 256` (exchanged in undo mode) whatever
the size of `v2` and `v3`: with the offset within the length and room for the operation
(the array not beyond its capacity, the capacity below `2 ^ 31`, `realloc` succeeding) the
line is accepted. No value above 255 makes a line a malformed line. -/
theorem byte_literals_reduced (env : Env) (length : Nat) (undo : Bool) (buf : List Char)
    (ps : List PATCH) (max v1 v2 v3 : Nat) (e1 e2 e3 : List Char)
    (hnl : '\n' ∈ cstr buf) (hne : strip_line buf ≠ [])
    (h1 : strtoull (strip_line buf) = ⟨v1, e1, false, true⟩)
    (h2 : strtoull e1 = ⟨v2, e2, false, true⟩)
    (h3 : strtoull e2 = ⟨v3, e3, false, true⟩)
    (hoff : v1 ≤ length) (hcap : ps.length ≤ max) (hmax : max < 2 ^ 31)
    (hmem : ∀ n, env.realloc_ok n = true) :
    scan_line buf = .op v1 (v2 % 256) (v3 % 256) ∧
      ∃ max1, loop_body env length undo buf ps max =
        .next (ps ++ [if undo then ⟨v1, false, v3 % 256, v2 % 256⟩
          else ⟨v1, false, v2 % 256, v3 % 256⟩]) max1 := by
  have hscan : scan_line buf = .op v1 (v2 % 256) (v3 % 256) := by
    simp [scan_line, hnl, hne, h1, h2, h3]
  refine ⟨hscan, ?_⟩
  unfold loop_body
  rw [hscan]
  simp only [gt_iff_lt, not_lt.mpr hoff, if_false, hmem, Bool.true_eq_false, and_false]
  by_cases hg : ps.length ≥ max
  · have hm : ((if max = 0 then 8 else max) * 2) % 2 ^ 32 > ps.length := by
      have : ps.length = max := by omega
      split <;> omega
    simp only [hg, if_true]
    rw [if_neg (by omega)]
    exact ⟨_, rfl⟩
  · simp only [hg, if_false]
    exact ⟨_, rfl⟩

theorem byte_literals_reduced_witness :
    '\n' ∈ cstr "0 0x110 0x1AA\n".toList ∧ strip_line "0 0x110 0x1AA\n".toList ≠ [] ∧
      strtoull (strip_line "0 0x110 0x1AA\n".toList) = ⟨0, " 0x110 0x1AA".toList, false, true⟩ ∧
      strtoull " 0x110 0x1AA".toList = ⟨0x110, " 0x1AA".toList, false, true⟩ ∧
      strtoull " 0x1AA".toList = ⟨0x1AA, [], false, true⟩ ∧
      (scan_line "0 0x110 0x1AA\n".toList = .op 0 (0x110 % 256) (0x1AA % 256) ∧
        ∃ max1, loop_body Env.darwin 3 false "0 0x110 0x1AA\n".toList [] 0 =
          .next ([] ++ [if false then ⟨0, false, 0x1AA % 256, 0x110 % 256⟩
            else ⟨0, false, 0x110 % 256, 0x1AA % 256⟩]) max1) ∧
      parse_pass Env.darwin 3 false "0 0x110 0x1AA\n".toList =
        parse_pass Env.darwin 3 false "0 0x10 0xAA\n".toList :=
  ⟨by decide, by decide, by decide, by decide, by decide,
    byte_literals_reduced Env.darwin 3 false "0 0x110 0x1AA\n".toList [] 0 0 0x110 0x1AA
      " 0x110 0x1AA".toList " 0x1AA".toList [] (by decide) (by decide) (by decide) (by decide)
      (by decide) (by decide) (by decide) (by decide) (fun _ => rfl),
    by decide⟩


end Img4
